import Mathlib

/-
Verification of the in-process state-management layer of the
materials-discovery assistant: the multi-tier result cache
(src/backend/utils/cache.py), the session registry sweep
(src/backend/agents/graph.py), the submit/poll/fetch job protocol
(src/backend/tools/surechembl.py) and the markdown-JSON parser
(src/backend/utils/parsing.py).

Machine integers do not occur: Python ints are arbitrary precision and are
modelled as Nat / Int.  Timestamps (datetime.now(), time.monotonic()) are
modelled as integers counting seconds.
-/

/-! ## cachetools model

`CacheManager` is built on `cachetools.LRUCache` and `cachetools.TTLCache`
(external library).  They are modelled by their documented semantics:

* `LRUCache`: bounded mapping; `cache[key]` (read) marks the entry as most
  recently used, `cache[key] = v` inserts/updates and marks it most recently
  used, and on overflow the least recently used entry is evicted.
  `key in cache` does not touch the entry.
* `TTLCache`: bounded mapping in which every entry carries an expiry time
  `insertion time + ttl`; an expired entry behaves as absent for both
  `key in cache` and `cache[key]`.

Entries are kept in a list ordered least-recently-used first. -/

structure LRU (α : Type) where
  maxsize : Nat
  entries : List (String × α)

/-- `key in cache` for `LRUCache` (no touch). -/
def LRU.containsKey (c : LRU α) (k : String) : Bool :=
  (c.entries.lookup k).isSome

/-- `cache[key]` for `LRUCache`: on a hit the entry is moved to
most-recently-used position. -/
def LRU.getTouch (c : LRU α) (k : String) : Option (α × LRU α) :=
  match c.entries.lookup k with
  | none => none
  | some v =>
      some (v, ⟨c.maxsize, (c.entries.filter (fun p => p.1 != k)) ++ [(k, v)]⟩)

/-- `cache[key] = value` for `LRUCache`: insert/update at most-recently-used
position, then evict least-recently-used entries while over capacity. -/
def LRU.set (c : LRU α) (k : String) (v : α) : LRU α :=
  let es := (c.entries.filter (fun p => p.1 != k)) ++ [(k, v)]
  ⟨c.maxsize, es.drop (es.length - c.maxsize)⟩

/-- `cachetools.TTLCache`: entries carry the absolute expiry time
`insertion time + ttl`. -/
structure TTL (α : Type) where
  maxsize : Nat
  ttl : Nat
  entries : List (String × α × Nat)

/-- `key in cache` for `TTLCache`: present and not yet expired. -/
def TTL.containsKey (c : TTL α) (now : Nat) (k : String) : Bool :=
  match c.entries.lookup k with
  | some (_, expiresAt) => now < expiresAt
  | none => false

/-- `cache[key]` for `TTLCache`: an expired entry behaves as missing. -/
def TTL.lookup (c : TTL α) (now : Nat) (k : String) : Option α :=
  match c.entries.lookup k with
  | some (v, expiresAt) => if now < expiresAt then some v else none
  | none => none

/-- `cache[key] = value` for `TTLCache`: drop expired entries, replace any
existing entry for the key, append with expiry `now + ttl`, then evict the
oldest entries while over capacity. -/
def TTL.set (c : TTL α) (now : Nat) (k : String) (v : α) : TTL α :=
  let es := ((c.entries.filter (fun e => now < e.2.2)).filter (fun e => e.1 != k))
      ++ [(k, v, now + c.ttl)]
  ⟨c.maxsize, c.ttl, es.drop (es.length - c.maxsize)⟩

/-! ## CacheManager (src/backend/utils/cache.py) -/

/-- State of a `CacheManager` instance: the `permanent` LRU tier, the
`temporary` 24-hour TTL tier, and the dynamically created `ttl_<d>`
attributes, one per distinct duration `d ≠ 86400`, represented as an
association list keyed by the duration. -/
structure CacheManager (α : Type) where
  permanent : LRU α
  temporary : TTL α
  dynamic : List (Nat × TTL α)

/-- `CacheManager.__init__(max_size)`. -/
def CacheManager.init (α : Type) (maxSize : Nat) : CacheManager α :=
  ⟨⟨maxSize, []⟩, ⟨maxSize, 86400, []⟩, []⟩

/-- `CacheManager.get`: checks `self.permanent`, then `self.temporary`,
else returns `None`.  Faithful to the source: the dynamically created
`ttl_<d>` caches are never consulted here.  Returns the result together
with the updated state (a permanent-tier hit is an LRU touch). -/
def CacheManager.get (c : CacheManager α) (now : Nat) (k : String) :
    Option α × CacheManager α :=
  match c.permanent.getTouch k with
  | some (v, p) => (some v, { c with permanent := p })
  | none =>
      if c.temporary.containsKey now k then (c.temporary.lookup now k, c)
      else (none, c)

/-- The `hasattr`/`setattr`/`getattr` dance of `CacheManager.set` for a
duration `d ≠ 86400`: look up the `ttl_<d>` attribute, creating it as
`TTLCache(maxsize=1000, ttl=d)` on first use, and store into it. -/
def dynSet (ds : List (Nat × TTL α)) (d : Nat) (now : Nat) (k : String) (v : α) :
    List (Nat × TTL α) :=
  match ds.lookup d with
  | none => ds ++ [(d, TTL.set ⟨1000, d, []⟩ now k v)]
  | some t => ds.map (fun p => if p.1 == d then (p.1, t.set now k v) else p)

/-- `CacheManager.set(key, value, ttl)`: `ttl = None` goes to the permanent
LRU tier; `ttl = 86400` goes to `self.temporary`; any other duration goes to
the dynamically created `ttl_<d>` cache. -/
def CacheManager.set (c : CacheManager α) (now : Nat) (k : String) (v : α)
    (ttl : Option Nat) : CacheManager α :=
  match ttl with
  | none => { c with permanent := c.permanent.set k v }
  | some d =>
      if d != 86400 then { c with dynamic := dynSet c.dynamic d now k v }
      else { c with temporary := c.temporary.set now k v }

/-- Whether the dynamic tier for duration `d` holds a live value for `k`. -/
def CacheManager.dynContains (c : CacheManager α) (d : Nat) (now : Nat)
    (k : String) : Bool :=
  match c.dynamic.lookup d with
  | some t => t.containsKey now k
  | none => false

/-- C1: the claim fails on the code.  For a duration `d ≠ 86400` (here
`ttl = 5`), `set(k, v, ttl=5)` stores the entry in the dynamically created
`ttl_5` tier, but `get` only ever consults the permanent tier and the
86400-second tier, so `get(k)` returns absent immediately (time 0) and at
t = 4s, although the entry is live in its tier and 5 seconds have not
elapsed. -/
theorem C1_ttl_roundtrip_fails_for_dynamic_tier :
    ((CacheManager.init String 1000).set 0 "k" "v" (some 5)).dynContains 5 0 "k" = true ∧
    ((CacheManager.init String 1000).set 0 "k" "v" (some 5)).dynContains 5 4 "k" = true ∧
    ((((CacheManager.init String 1000).set 0 "k" "v" (some 5)).get 0 "k").1 = none ∧
      (((CacheManager.init String 1000).set 0 "k" "v" (some 5)).get 4 "k").1 = none) := by
  refine ⟨rfl, rfl, rfl, rfl⟩

/-- C8: classic LRU on the permanent tier, a `get` hit counting as a touch.
With capacity 2: `set A; set B; get A; set C` evicts exactly `B`, leaving
the permanent tier holding `A` and `C` (in least-recently-used order
`[A, C]`). -/
theorem C8_lru_eviction_get_counts_as_touch :
    (let c1 := (CacheManager.init String 2).set 0 "A" "va" none
    let c2 := c1.set 0 "B" "vb" none
    let g := c2.get 0 "A"
    let c4 := g.2.set 0 "C" "vc" none
    g.1 = some "va" ∧
      (c4.get 0 "A").1 = some "va" ∧
      (c4.get 0 "C").1 = some "vc" ∧
      (c4.get 0 "B").1 = none ∧
      c4.permanent.entries.map Prod.fst = ["A", "C"]) := by
  refine ⟨rfl, rfl, rfl, rfl, rfl⟩

/-! ## Session registry (src/backend/agents/graph.py)

`_active_sessions : Dict[str, datetime]` is modelled as an association list
`List (String × Int)` (keys in insertion order, timestamps in seconds).
The configuration attributes `settings.SESSION_CLEANUP_INACTIVE_MINUTES`
and `settings.SESSION_CLEANUP_ON_NEW_SESSION` read by
`cleanup_old_sessions` are modelled as parameters. -/

structure SweepSettings where
  inactiveMinutes : Int
  cleanupOnNewSession : Bool

/-- Second removal-collection loop of `cleanup_old_sessions`: appends every
session with `now - last_access > timedelta(minutes=5)` that is not already
listed. -/
def addOrphans (reg : List (String × Int)) (now : Int) (acc : List String) :
    List String :=
  reg.foldl
    (fun acc p =>
      if 5 * 60 < now - p.2 && !(acc.contains p.1) then acc ++ [p.1] else acc)
    acc

/-- The `sessions_to_remove` list computed by `cleanup_old_sessions`: first
every session with `now - last_access > inactive_threshold`; then, if
`is_new_session and settings.SESSION_CLEANUP_ON_NEW_SESSION`, every session
with `now - last_access > timedelta(minutes=5)` not already listed. -/
def sessions_to_remove (reg : List (String × Int)) (now : Int)
    (cfg : SweepSettings) (isNewSession : Bool) : List String :=
  let base := (reg.filter
      (fun p => decide (cfg.inactiveMinutes * 60 < now - p.2))).map Prod.fst
  if isNewSession && cfg.cleanupOnNewSession then addOrphans reg now base
  else base

theorem mem_addOrphans (now : Int) (sid : String) :
    ∀ (reg : List (String × Int)) (acc : List String),
      sid ∈ addOrphans reg now acc ↔
        sid ∈ acc ∨ ∃ t, (sid, t) ∈ reg ∧ 5 * 60 < now - t := by
  intro reg
  induction reg with
  | nil => intro acc; simp [addOrphans]
  | cons p rest ih =>
      intro acc
      have step : addOrphans (p :: rest) now acc =
          addOrphans rest now
            (if 5 * 60 < now - p.2 ∧ p.1 ∉ acc then acc ++ [p.1] else acc) := by
        simp only [addOrphans, List.foldl_cons]
        congr 1
        by_cases h1 : 5 * 60 < now - p.2 <;> by_cases h2 : p.1 ∈ acc <;>
          simp [h1, h2, List.elem_iff]
      rw [step, ih]
      have hacc : sid ∈ (if 5 * 60 < now - p.2 ∧ p.1 ∉ acc
            then acc ++ [p.1] else acc) ↔
          sid ∈ acc ∨ (5 * 60 < now - p.2 ∧ p.1 ∉ acc ∧ sid = p.1) := by
        split
        · rename_i h
          simp only [List.mem_append, List.mem_singleton]
          constructor
          · rintro (h' | h')
            · exact Or.inl h'
            · exact Or.inr ⟨h.1, h.2, h'⟩
          · rintro (h' | ⟨_, _, h'⟩)
            · exact Or.inl h'
            · exact Or.inr h'
        · rename_i h
          constructor
          · exact Or.inl
          · rintro (h' | ⟨ho, hna, _⟩)
            · exact h'
            · exact absurd ⟨ho, hna⟩ h
      rw [hacc]
      constructor
      · rintro ((h | ⟨ho, _, he⟩) | ⟨t, ht, hlt⟩)
        · exact Or.inl h
        · refine Or.inr ⟨p.2, List.mem_cons.2 (Or.inl ?_), ho⟩
          rw [he]
        · exact Or.inr ⟨t, List.mem_cons_of_mem _ ht, hlt⟩
      · rintro (h | ⟨t, ht, hlt⟩)
        · exact Or.inl (Or.inl h)
        · rcases List.mem_cons.1 ht with he | ht'
          · have hs : sid = p.1 := congrArg Prod.fst he
            have htt : t = p.2 := congrArg Prod.snd he
            by_cases hpk : p.1 ∈ acc
            · exact Or.inl (Or.inl (hs ▸ hpk))
            · exact Or.inl (Or.inr ⟨htt ▸ hlt, hpk, hs⟩)
          · exact Or.inr ⟨t, ht', hlt⟩

/-- Membership in the removal set computed by `cleanup_old_sessions`. -/
theorem mem_sessions_to_remove (reg : List (String × Int)) (now : Int)
    (cfg : SweepSettings) (isNew : Bool) (sid : String)
    (hflag : cfg.cleanupOnNewSession = true) :
    sid ∈ sessions_to_remove reg now cfg isNew ↔
      ∃ t, (sid, t) ∈ reg ∧
        (cfg.inactiveMinutes * 60 < now - t ∨ (isNew = true ∧ 5 * 60 < now - t)) := by
  have hbase : ∀ s : String, (s ∈ (reg.filter
        (fun p => decide (cfg.inactiveMinutes * 60 < now - p.2))).map Prod.fst ↔
      ∃ t, (s, t) ∈ reg ∧ cfg.inactiveMinutes * 60 < now - t) := by
    intro s
    rw [List.mem_map]
    constructor
    · rintro ⟨⟨k, t⟩, hp, hfst⟩
      rcases List.mem_filter.1 hp with ⟨hmem, hcond⟩
      cases hfst
      exact ⟨t, hmem, by simpa using hcond⟩
    · rintro ⟨t, ht, hlt⟩
      exact ⟨(s, t), List.mem_filter.2 ⟨ht, by simpa using hlt⟩, rfl⟩
  cases isNew with
  | false =>
      have hsh : sessions_to_remove reg now cfg false = (reg.filter
          (fun p => decide (cfg.inactiveMinutes * 60 < now - p.2))).map Prod.fst := by
        simp [sessions_to_remove]
      rw [hsh, hbase]
      constructor
      · rintro ⟨t, ht, hlt⟩; exact ⟨t, ht, Or.inl hlt⟩
      · rintro ⟨t, ht, hlt | ⟨hfalse, _⟩⟩
        · exact ⟨t, ht, hlt⟩
        · exact absurd hfalse (by simp)
  | true =>
      have hsh : sessions_to_remove reg now cfg true = addOrphans reg now
          ((reg.filter
            (fun p => decide (cfg.inactiveMinutes * 60 < now - p.2))).map Prod.fst) := by
        simp [sessions_to_remove, hflag]
      rw [hsh, mem_addOrphans, hbase]
      constructor
      · rintro (⟨t, ht, hlt⟩ | ⟨t, ht, hlt⟩)
        · exact ⟨t, ht, Or.inl hlt⟩
        · exact ⟨t, ht, Or.inr ⟨rfl, hlt⟩⟩
      · rintro ⟨t, ht, hlt | ⟨_, hlt⟩⟩
        · exact Or.inl ⟨t, ht, hlt⟩
        · exact Or.inr ⟨t, ht, hlt⟩

/-- C2: the removal set computed by a sweep is exactly the sessions with
`now − last_access > inactivity_threshold`, plus — only when the sweep is
triggered by a new session — those with `now − last_access >` 5 minutes;
together with the two concrete scenarios of the specification
(`{s1 : now−61m, s2 : now−1m}`, threshold 60m, removes exactly `s1`;
orphan sweep removes `s3 : now−6m`). -/
theorem C2_sweep_removal_set (reg : List (String × Int)) (now : Int)
    (cfg : SweepSettings) (isNew : Bool) (sid : String)
    (hflag : cfg.cleanupOnNewSession = true) :
    (sid ∈ sessions_to_remove reg now cfg isNew ↔
      ∃ t, (sid, t) ∈ reg ∧
        (cfg.inactiveMinutes * 60 < now - t ∨ (isNew = true ∧ 5 * 60 < now - t))) ∧
    sessions_to_remove [("s1", -3660), ("s2", -60)] 0 ⟨60, true⟩ false = ["s1"] ∧
    sessions_to_remove [("s3", -360)] 0 ⟨60, true⟩ true = ["s3"] := by
  refine ⟨mem_sessions_to_remove reg now cfg isNew sid hflag, by decide, by decide⟩

theorem C2_sweep_removal_set_witness :
    ("s1" ∈ sessions_to_remove [("s1", -3660), ("s2", -60)] 0 ⟨60, true⟩ false ↔
      ∃ t, (("s1", t) ∈ [(("s1" : String), (-3660 : Int)), ("s2", -60)]) ∧
        ((60 : Int) * 60 < 0 - t ∨ (false = true ∧ 5 * 60 < 0 - t))) ∧
    sessions_to_remove [("s1", -3660), ("s2", -60)] 0 ⟨60, true⟩ false = ["s1"] ∧
    sessions_to_remove [("s3", -360)] 0 ⟨60, true⟩ true = ["s3"] :=
  C2_sweep_removal_set [("s1", -3660), ("s2", -60)] 0 ⟨60, true⟩ false "s1" rfl

/-- The per-session deletion environment of `cleanup_old_sessions`: the
checkpointer's storage (thread ids with conversation state in the
`InMemorySaver`) is a list of session ids, and `deleteRaises sid` models
`del checkpointer._storage[sid]` raising an exception (caught and logged by
the sweep). -/
structure SweepEnv where
  deleteRaises : String → Bool

/-- Mutable state threaded through the removal loop of
`cleanup_old_sessions`. -/
structure SweepState where
  registry : List (String × Int)
  storage : List String
  cleanedCount : Nat

/-- One iteration of the removal loop of `cleanup_old_sessions`: best-effort
delete the session's conversation state (`try ... except ... log`), then
`_active_sessions.pop(session_id, None)` unconditionally. -/
def sweep_step (env : SweepEnv) (st : SweepState) (sid : String) : SweepState :=
  let st1 :=
    if env.deleteRaises sid then st
    else if st.storage.contains sid then
      { st with storage := st.storage.filter (fun s => s != sid),
                cleanedCount := st.cleanedCount + 1 }
    else st
  { st1 with registry := st1.registry.filter (fun p => p.1 != sid) }

/-- `cleanup_old_sessions(checkpointer, is_new_session)`: compute
`sessions_to_remove`, then run the removal loop over it. -/
def cleanup_old_sessions (env : SweepEnv) (reg : List (String × Int))
    (storage : List String) (now : Int) (cfg : SweepSettings)
    (isNewSession : Bool) : SweepState :=
  (sessions_to_remove reg now cfg isNewSession).foldl (sweep_step env)
    ⟨reg, storage, 0⟩

theorem sweep_step_registry (env : SweepEnv) (st : SweepState) (sid : String) :
    (sweep_step env st sid).registry = st.registry.filter (fun p => p.1 != sid) := by
  unfold sweep_step
  split
  · rfl
  · split <;> rfl

/-- The removal loop removes from the registry exactly the listed sessions,
whatever the per-session deletion outcomes are. -/
theorem foldl_sweep_registry (env : SweepEnv) :
    ∀ (l : List String) (st : SweepState),
      (l.foldl (sweep_step env) st).registry =
        st.registry.filter (fun p => !(l.contains p.1)) := by
  intro l
  induction l with
  | nil =>
      intro st
      simp [List.filter_true]
  | cons x xs ih =>
      intro st
      rw [List.foldl_cons, ih, sweep_step_registry, List.filter_filter]
      apply List.filter_congr
      intro p _
      by_cases h1 : p.1 = x <;> by_cases h2 : p.1 ∈ xs <;>
        simp [List.contains_cons, h1, h2, bne_iff_ne]

/-- C6: for every sweep, every session in the removal set is removed from
the registry regardless of whether deleting its conversation state raised
(`env.deleteRaises` is universally quantified and absent from the
right-hand side), and no deletion failure aborts the loop: the final
registry is exactly the initial one minus the whole removal set. -/
theorem C6_sweep_deletion_failure_isolated (env : SweepEnv)
    (reg : List (String × Int)) (storage : List String) (now : Int)
    (cfg : SweepSettings) (isNewSession : Bool) :
    (cleanup_old_sessions env reg storage now cfg isNewSession).registry =
      reg.filter
        (fun p => !((sessions_to_remove reg now cfg isNewSession).contains p.1)) := by
  unfold cleanup_old_sessions
  rw [foldl_sweep_registry]

/-- `_active_sessions[session_id] = datetime.now()` in `run_agent`: Python
dict assignment (update in place, or append for a new key). -/
def record_access : List (String × Int) → String → Int → List (String × Int)
  | [], sid, t => [(sid, t)]
  | p :: rest, sid, t =>
      if p.1 == sid then (p.1, t) :: rest else p :: record_access rest sid t

/-- The session-management prefix of `run_agent`: record the access time of
the requesting session, then, if this is a new session, run the sweep
(`await cleanup_old_sessions(_checkpointer, is_new_session=True)`).
`tAccess` and `tSweep` are the two `datetime.now()` readings; no other turn
interleaves between them under the cooperative-concurrency model. -/
def run_agent_sessions (env : SweepEnv) (reg : List (String × Int))
    (storage : List String) (sid : String) (isNewSession : Bool)
    (tAccess tSweep : Int) (cfg : SweepSettings) : SweepState :=
  let reg' := record_access reg sid tAccess
  if isNewSession then cleanup_old_sessions env reg' storage tSweep cfg true
  else ⟨reg', storage, 0⟩

theorem record_access_mem_fst (reg : List (String × Int)) (sid : String)
    (t : Int) : sid ∈ (record_access reg sid t).map Prod.fst := by
  induction reg with
  | nil => simp [record_access]
  | cons p rest ih =>
      by_cases h : p.1 = sid
      · simp [record_access, h]
      · have hb : (p.1 == sid) = false := by simp [h]
        simp only [record_access, hb, Bool.false_eq_true, if_false,
          List.map_cons, List.mem_cons]
        exact Or.inr ih

theorem record_access_timestamp (reg : List (String × Int)) (sid : String)
    (t : Int) (hnodup : (reg.map Prod.fst).Nodup) :
    ∀ u, (sid, u) ∈ record_access reg sid t → u = t := by
  induction reg with
  | nil => intro u hu; simpa [record_access] using hu
  | cons p rest ih =>
      intro u hu
      have hnd := List.nodup_cons.1
        (show (p.1 :: rest.map Prod.fst).Nodup by simpa using hnodup)
      by_cases h : p.1 = sid
      · rw [record_access, if_pos (by simp [h])] at hu
        rcases List.mem_cons.1 hu with he | hrest
        · simpa using congrArg Prod.snd he
        · exfalso
          have hm : sid ∈ rest.map Prod.fst :=
            List.mem_map.2 ⟨(sid, u), hrest, rfl⟩
          exact hnd.1 (h ▸ hm)
      · rw [record_access, if_neg (by simp [h])] at hu
        rcases List.mem_cons.1 hu with he | hrest
        · exact absurd (show p.1 = sid by simpa using congrArg Prod.fst he.symm) h
        · exact ih hnd.2 u hrest

/-- A session none of whose registry timestamps is over either threshold is
not in the removal set (whatever `is_new_session` and the config flag
are). -/
theorem not_mem_sessions_to_remove (reg : List (String × Int)) (now : Int)
    (cfg : SweepSettings) (isNew : Bool) (sid : String)
    (h : ∀ t, (sid, t) ∈ reg →
      ¬(cfg.inactiveMinutes * 60 < now - t) ∧ ¬(5 * 60 < now - t)) :
    sid ∉ sessions_to_remove reg now cfg isNew := by
  have hbase : sid ∉ (reg.filter
      (fun p => decide (cfg.inactiveMinutes * 60 < now - p.2))).map Prod.fst := by
    intro hmem
    rcases List.mem_map.1 hmem with ⟨⟨k, t⟩, hp, hfst⟩
    rcases List.mem_filter.1 hp with ⟨hmem', hcond⟩
    cases hfst
    exact (h t hmem').1 (by simpa using hcond)
  intro hmem
  unfold sessions_to_remove at hmem
  by_cases hc : (isNew && cfg.cleanupOnNewSession) = true
  · rw [if_pos hc] at hmem
    rcases (mem_addOrphans now sid reg _).1 hmem with hb | ⟨t, ht, hlt⟩
    · exact hbase hb
    · exact (h t ht).2 hlt
  · rw [if_neg hc] at hmem
    exact hbase hmem

/-- C7: the inbound turn upserts the requesting session's last-access time
(`tAccess`) before the sweep computes its removal set at `tSweep`; with the
elapsed time between the two clock readings below both thresholds (they are
microseconds apart in the source, with no suspension point between them),
the sweep never removes the initiating session: it is not in the removal
set, and it is still in the registry after `run_agent`'s session prefix. -/
theorem C7_sweep_never_removes_initiator (env : SweepEnv)
    (reg : List (String × Int)) (storage : List String) (sid : String)
    (isNewSession : Bool) (tAccess tSweep : Int) (cfg : SweepSettings)
    (hnodup : (reg.map Prod.fst).Nodup)
    (h1 : tSweep - tAccess ≤ 5 * 60)
    (h2 : tSweep - tAccess ≤ cfg.inactiveMinutes * 60) :
    sid ∉ sessions_to_remove (record_access reg sid tAccess) tSweep cfg true ∧
    sid ∈ (run_agent_sessions env reg storage sid isNewSession tAccess tSweep
        cfg).registry.map Prod.fst := by
  have hts : ∀ u, (sid, u) ∈ record_access reg sid tAccess → u = tAccess :=
    record_access_timestamp reg sid tAccess hnodup
  have hnot : ∀ isNew : Bool,
      sid ∉ sessions_to_remove (record_access reg sid tAccess) tSweep cfg isNew := by
    intro isNew
    apply not_mem_sessions_to_remove
    intro t ht
    rw [hts t ht]
    omega
  refine ⟨hnot true, ?_⟩
  unfold run_agent_sessions
  cases isNewSession with
  | false =>
      simp only [Bool.false_eq_true, if_false]
      exact record_access_mem_fst reg sid tAccess
  | true =>
      simp only [if_true]
      unfold cleanup_old_sessions
      rw [foldl_sweep_registry]
      rcases List.mem_map.1 (record_access_mem_fst reg sid tAccess) with
        ⟨p, hp, hfst⟩
      refine List.mem_map.2 ⟨p, List.mem_filter.2 ⟨hp, ?_⟩, hfst⟩
      have hnc : p.1 ∉ sessions_to_remove (record_access reg sid tAccess)
          tSweep cfg true := by
        rw [hfst]; exact hnot true
      cases hc : (sessions_to_remove (record_access reg sid tAccess) tSweep cfg
          true).contains p.1
      · rfl
      · exact absurd (List.elem_iff.1 hc) hnc

theorem C7_sweep_never_removes_initiator_witness :
    ("s" ∉ sessions_to_remove (record_access [] "s" 0) 0 ⟨60, true⟩ true ∧
      "s" ∈ (run_agent_sessions ⟨fun _ => false⟩ [] [] "s" true 0 0
          ⟨60, true⟩).registry.map Prod.fst) :=
  C7_sweep_never_removes_initiator ⟨fun _ => false⟩ [] [] "s" true 0 0
    ⟨60, true⟩ (by simp) (by decide) (by decide)

/-! ## Job poller (src/backend/tools/surechembl.py)

`_poll_search_results(client, job_id, max_retries)` loops up to
`max_retries` times: GET the status; on COMPLETE fetch and return the
results page; on FAILED/ERROR raise immediately; otherwise sleep 2 s and
retry; after the loop raise the timeout exception.  The remote status
responses are a function from poll index to status; the model counts the
status requests and the interval sleeps that are performed. -/

inductive JobStatus where
  | pending
  | running
  | complete
  | failed
  | error
  deriving DecidableEq, Repr

/-- Outcome of `_poll_search_results`: the fetched results page, the
`Exception(f"Search job failed with status: {status}")` raise carrying the
terminal status, or the `Exception("Search timed out")` raise. -/
inductive PollOutcome (ρ : Type) where
  | ok (r : ρ)
  | jobFailed (st : JobStatus)
  | jobTimeout
  deriving DecidableEq, Repr

/-- `_poll_search_results`: `status i` is the status returned by the
`(i+1)`-th status request, `results` the payload of the results fetch.
Returns the outcome together with the total number of status requests
issued and of 2-second interval sleeps performed. -/
def poll_search_results (status : Nat → JobStatus) (results : ρ) :
    Nat → Nat → Nat → PollOutcome ρ × Nat × Nat
  | 0, polls, sleeps => (.jobTimeout, polls, sleeps)
  | fuel + 1, polls, sleeps =>
      match status polls with
      | .complete => (.ok results, polls + 1, sleeps)
      | .failed => (.jobFailed .failed, polls + 1, sleeps)
      | .error => (.jobFailed .error, polls + 1, sleeps)
      | _ => poll_search_results status results fuel (polls + 1) (sleeps + 1)

theorem poll_search_results_nonterminal (status : Nat → JobStatus)
    (results : ρ)
    (h : ∀ i, status i = .pending ∨ status i = .running) :
    ∀ (fuel polls sleeps : Nat),
      poll_search_results status results fuel polls sleeps =
        (.jobTimeout, polls + fuel, sleeps + fuel) := by
  intro fuel
  induction fuel with
  | zero => intro polls sleeps; simp [poll_search_results]
  | succ n ih =>
      intro polls sleeps
      rcases h polls with hp | hp <;>
        · rw [poll_search_results, hp]
          rw [ih]
          refine congrArg (Prod.mk _) ?_
          refine congrArg₂ Prod.mk ?_ ?_ <;> omega

/-- C4: when the remote status never reaches a terminal value, the poller
issues exactly `max_attempts` status requests — never one more — and then
fails with the timeout exception; in particular `max_attempts = 3` yields
exactly 3 polls. -/
theorem C4_poll_timeout_exact_attempts (status : Nat → JobStatus)
    (results : ρ) (maxRetries : Nat)
    (h : ∀ i, status i = .pending ∨ status i = .running) :
    poll_search_results status results maxRetries 0 0 =
      (.jobTimeout, maxRetries, maxRetries) ∧
    poll_search_results status results 3 0 0 = (.jobTimeout, 3, 3) := by
  constructor
  · have := poll_search_results_nonterminal status results h maxRetries 0 0
    simpa using this
  · have := poll_search_results_nonterminal status results h 3 0 0
    simpa using this

theorem C4_poll_timeout_exact_attempts_witness :
    poll_search_results (fun _ => JobStatus.pending) (0 : Nat) 3 0 0 =
      (.jobTimeout, 3, 3) ∧
    poll_search_results (fun _ => JobStatus.pending) (0 : Nat) 3 0 0 =
      (.jobTimeout, 3, 3) :=
  C4_poll_timeout_exact_attempts (fun _ => JobStatus.pending) 0 3
    (fun _ => Or.inl rfl)

theorem poll_search_results_fail_shift (status : Nat → JobStatus)
    (results : ρ) :
    ∀ (k fuel polls sleeps : Nat),
      k + 1 ≤ fuel →
      (∀ i, polls ≤ i → i < polls + k →
        status i = .pending ∨ status i = .running) →
      (status (polls + k) = .failed ∨ status (polls + k) = .error) →
      poll_search_results status results fuel polls sleeps =
        (.jobFailed (status (polls + k)), polls + k + 1, sleeps + k) := by
  intro k
  induction k with
  | zero =>
      intro fuel polls sleeps hfuel _ hk
      obtain ⟨f, rfl⟩ : ∃ f, fuel = f + 1 := ⟨fuel - 1, by omega⟩
      simp only [Nat.add_zero] at hk ⊢
      rcases hk with hs | hs <;> rw [poll_search_results, hs]
  | succ k ih =>
      intro fuel polls sleeps hfuel hpre hk
      obtain ⟨f, rfl⟩ : ∃ f, fuel = f + 1 := ⟨fuel - 1, by omega⟩
      have hnt := hpre polls (le_refl _) (by omega)
      have hshift : polls + (k + 1) = (polls + 1) + k := by omega
      have ih' := ih f (polls + 1) (sleeps + 1) (by omega)
        (fun i h1 h2 => hpre i (by omega) (by omega))
        (by rw [← hshift]; exact hk)
      rcases hnt with hs | hs <;>
        · rw [poll_search_results, hs, ih',
            show (polls + 1) + k = polls + (k + 1) from by omega,
            show (sleeps + 1) + k = sleeps + (k + 1) from by omega]

/-- C5: whenever a status query returns FAILED or ERROR, the poller fails
immediately with the job-failure exception carrying that status, issuing no
further status request and no further interval sleep: if the first `k`
status queries are nonterminal (PENDING/RUNNING) and the `(k+1)`-th returns
FAILED or ERROR, the run performs exactly `k + 1` status requests and `k`
sleeps (the raise precedes the `asyncio.sleep`).  `k = 0` is the claim's
first-poll case: exactly one poll total and no wait. -/
theorem C5_poll_fails_fast (status : Nat → JobStatus) (results : ρ)
    (fuel k : Nat) (hfuel : k + 1 ≤ fuel)
    (hpre : ∀ i, i < k → status i = .pending ∨ status i = .running)
    (hk : status k = .failed ∨ status k = .error) :
    poll_search_results status results fuel 0 0 =
      (.jobFailed (status k), k + 1, k) := by
  have h := poll_search_results_fail_shift status results k fuel 0 0 hfuel
    (fun i _ h2 => hpre i (by omega)) (by simpa using hk)
  simpa using h

theorem C5_poll_fails_fast_witness :
    (poll_search_results
        (fun i => if i < 2 then JobStatus.pending else JobStatus.failed)
        (0 : Nat) 10 0 0 =
      (.jobFailed
        ((fun i => if i < 2 then JobStatus.pending else JobStatus.failed) 2),
        3, 2)) ∧
    poll_search_results (fun _ => JobStatus.failed) (0 : Nat) 10 0 0 =
      (.jobFailed ((fun _ => JobStatus.failed) 0), 1, 0) :=
  ⟨C5_poll_fails_fast
      (fun i => if i < 2 then JobStatus.pending else JobStatus.failed)
      0 10 2 (by omega) (by decide) (by decide),
    C5_poll_fails_fast (fun _ => JobStatus.failed) 0 10 0 (by omega)
      (fun i hi => absurd hi (by omega)) (Or.inl rfl)⟩

/-! ### search_patents_tool (src/backend/tools/surechembl.py)

The tool's surrounding I/O is abstracted as data: `submit` is the outcome
of the submission POST (`raise_for_status` + `.json()`, the JSON object as
an association list of string fields, `""` being a falsy value), `status`
gives the status responses (they depend on the job handle interpolated
into the URL), and `fetched` is the `result_str` built from the COMPLETE
results page.  The whole `try` body's exceptions surface as the
`json.dumps({"error": ...})` return value; the crucial point for the cache
claims is where `cache_manager.set` does and does not run. -/

/-- `response.json().get(k)`. -/
def pyGet (obj : List (String × String)) (k : String) : Option String :=
  obj.lookup k

/-- Python truthiness of an optional string (`None` and `""` are falsy). -/
def pyTruthy : Option String → Bool
  | none => false
  | some s => s != ""

/-- The job-handle extraction of `search_patents_tool`:
`job_id = resp.get("string")`; `if not job_id: job_id = resp.get("hash") or
resp.get("id")`.  No error is raised when every candidate is missing — the
result is simply `None`. -/
def extract_patents_job_id (resp : List (String × String)) : Option String :=
  let j0 := pyGet resp "string"
  if pyTruthy j0 then j0
  else
    let j1 := pyGet resp "hash"
    if pyTruthy j1 then j1 else pyGet resp "id"

def patentsKey (q : String) : String := "surechembl:patents:v2:" ++ q

def statusText : JobStatus → String
  | .pending => "PENDING"
  | .running => "RUNNING"
  | .complete => "COMPLETE"
  | .failed => "FAILED"
  | .error => "ERROR"

/-- The message of the exception raised on a FAILED/ERROR status. -/
def jobFailedMsg (st : JobStatus) : String :=
  "Search job failed with status: " ++ statusText st

/-- The `except` branch of `search_patents_tool`:
`json.dumps({"error": f"SureChEMBL search failed: {str(e)}"})`. -/
def patentsErrJson (e : String) : String :=
  "\x7b\"error\": \"SureChEMBL search failed: " ++ e ++ "\"\x7d"

/-- `search_patents_tool(query)`: consult the cache (a truthy hit is
returned as is); otherwise submit, extract the job handle (possibly
`None`), poll — the handle is passed to the poller unconditionally — and
only after a successful poll store the formatted result with
`ttl = settings.CACHE_TTL_PATENTS` (86400).  Returns the tool's string
result, the final cache state and the number of status requests issued. -/
def search_patents_tool (c : CacheManager String) (now : Nat) (query : String)
    (submit : Except String (List (String × String)))
    (status : Option String → Nat → JobStatus)
    (fetched : String) (maxRetries : Nat) :
    String × CacheManager String × Nat :=
  let ckey := patentsKey query
  let r := c.get now ckey
  if pyTruthy r.1 then (r.1.getD "", r.2, 0)
  else
    match submit with
    | .error e => (patentsErrJson e, r.2, 0)
    | .ok resp =>
        let jobId := extract_patents_job_id resp
        match poll_search_results (status jobId) fetched maxRetries 0 0 with
        | (.ok s, polls, _) => (s, (r.2).set now ckey s (some 86400), polls)
        | (.jobFailed st, polls, _) =>
            (patentsErrJson (jobFailedMsg st), r.2, polls)
        | (.jobTimeout, polls, _) =>
            (patentsErrJson "Search timed out", r.2, polls)

/-- C3: fails on the code.  With a submission response containing none of
the candidate fields (`"string"`, `"hash"`, `"id"` — here the empty JSON
object), the extracted job handle is `None`, yet no submission error is
raised: the poller is still invoked (a status request for
`/search/None/status` is issued — here it answers FAILED, and exactly one
poll happens), and the tool returns the generic polling-failure payload. -/
theorem C3_missing_job_id_polls_anyway :
    extract_patents_job_id [] = none ∧
    search_patents_tool (CacheManager.init String 1000) 0 "q" (.ok [])
        (fun _ _ => JobStatus.failed) "r" 10 =
      (patentsErrJson (jobFailedMsg .failed), CacheManager.init String 1000, 1) :=
  ⟨rfl, rfl⟩

theorem TTL.lookup_isSome_of_containsKey (t : TTL α) (now : Nat) (k : String)
    (h : t.containsKey now k = true) : (t.lookup now k).isSome = true := by
  unfold TTL.containsKey at h
  unfold TTL.lookup
  rcases hl : t.entries.lookup k with _ | ⟨v, exp⟩
  · rw [hl] at h; exact absurd h (by simp)
  · rw [hl] at h
    simp only [hl]
    rw [if_pos (by simpa using h)]
    rfl

/-- A `CacheManager.get` miss leaves the cache untouched. -/
theorem CacheManager.get_miss (c : CacheManager α) (now : Nat) (k : String)
    (h : (c.get now k).1 = none) : c.get now k = (none, c) := by
  unfold CacheManager.get at h ⊢
  rcases hg : c.permanent.getTouch k with _ | ⟨v, p⟩ <;> rw [hg] at h
  · by_cases hc : c.temporary.containsKey now k = true
    · exfalso
      have h2 : c.temporary.lookup now k = none := by
        have h1 : (if c.temporary.containsKey now k = true
            then (c.temporary.lookup now k, c) else (none, c)).1 = none := h
        rwa [if_pos hc] at h1
      have h3 := TTL.lookup_isSome_of_containsKey c.temporary now k hc
      rw [h2] at h3
      exact absurd h3 (by simp)
    · show (if c.temporary.containsKey now k = true
          then (c.temporary.lookup now k, c) else (none, c)) = (none, c)
      rw [if_neg hc]
  · exfalso
    have h1 : (some v : Option α) = none := h
    exact absurd h1 (by simp)

theorem poll_search_results_no_complete (status : Nat → JobStatus)
    (results : ρ) (h : ∀ i, status i ≠ .complete) :
    ∀ (fuel polls sleeps : Nat) (s : ρ),
      (poll_search_results status results fuel polls sleeps).1 ≠ .ok s := by
  intro fuel
  induction fuel with
  | zero => intro polls sleeps s; simp [poll_search_results]
  | succ m ih =>
      intro polls sleeps s
      rw [poll_search_results]
      cases hs : status polls with
      | complete => exact absurd hs (h polls)
      | failed => simp
      | error => simp
      | pending => simpa using ih (polls + 1) (sleeps + 1) s
      | running => simpa using ih (polls + 1) (sleeps + 1) s

/-- C9: no negative caching.  On a cache miss, a submission failure returns
the error payload with the cache state exactly unchanged; a poll that never
completes (job failure or timeout — any failing remote call) also leaves
the cache state exactly unchanged, so the key stays absent; and a
subsequent call (the cache still missing) retries the remote call, and on
success populates the tier. -/
theorem C9_no_negative_caching (c : CacheManager String) (now : Nat)
    (q e fetched : String) (resp : List (String × String))
    (status : Option String → Nat → JobStatus) (n : Nat)
    (hmiss : (c.get now (patentsKey q)).1 = none)
    (hnc : ∀ i, status (extract_patents_job_id resp) i ≠ .complete) :
    search_patents_tool c now q (.error e) status fetched n =
      (patentsErrJson e, c, 0) ∧
    (search_patents_tool c now q (.ok resp) status fetched n).2.1 = c ∧
    search_patents_tool c now q (.ok resp) (fun _ _ => .complete) fetched
        (n + 1) =
      (fetched, c.set now (patentsKey q) fetched (some 86400), 1) := by
  have hgm : c.get now (patentsKey q) = (none, c) :=
    CacheManager.get_miss c now (patentsKey q) hmiss
  refine ⟨?_, ?_, ?_⟩
  · simp [search_patents_tool, hgm, pyTruthy]
  · have hnc' := poll_search_results_no_complete
      (status (extract_patents_job_id resp)) fetched hnc
    simp only [search_patents_tool, hgm]
    rcases hp : poll_search_results (status (extract_patents_job_id resp))
        fetched n 0 0 with ⟨out, polls, sleeps⟩
    cases out with
    | ok s =>
        exact absurd (by rw [hp] : (poll_search_results
          (status (extract_patents_job_id resp)) fetched n 0 0).1 = .ok s)
          (hnc' n 0 0 s)
    | jobFailed st => simp [pyTruthy, hp]
    | jobTimeout => simp [pyTruthy, hp]
  · simp [search_patents_tool, hgm, pyTruthy, poll_search_results]

theorem C9_no_negative_caching_witness :
    (search_patents_tool (CacheManager.init String 1000) 0 "q"
        (.error "boom") (fun _ _ => JobStatus.pending) "ok" 10 =
      (patentsErrJson "boom", CacheManager.init String 1000, 0)) ∧
    ((search_patents_tool (CacheManager.init String 1000) 0 "q" (.ok [])
        (fun _ _ => JobStatus.pending) "ok" 10).2.1 =
      CacheManager.init String 1000) ∧
    (search_patents_tool (CacheManager.init String 1000) 0 "q" (.ok [])
        (fun _ _ => JobStatus.complete) "ok" 11 =
      ("ok", (CacheManager.init String 1000).set 0 (patentsKey "q") "ok"
        (some 86400), 1)) :=
  C9_no_negative_caching (CacheManager.init String 1000) 0 "q" "boom" "ok" []
    (fun _ _ => JobStatus.pending) 10 rfl
    (fun _ => (by decide : JobStatus.pending ≠ JobStatus.complete))

/-! ## parse_json_markdown (src/backend/utils/parsing.py)

Python strings are modelled as `List Char`.  JSON-serializable values are
modelled by `Jval` (numbers as arbitrary-precision integers; floats are
outside the model).  `dumps` reproduces `json.dumps` with its default
separators; it escapes `"` and `\`, which matches Python exactly on values
whose strings consist of printable-ASCII characters (`Jwf` below) —
outside that fragment CPython additionally emits `\uXXXX` escapes.
`json_loads` is a recursive-descent JSON reader (the model of
`json.loads`), and `parse_json_markdown` is the fence-stripping wrapper
from the source. -/

inductive Jval where
  | jnull
  | jbool (b : Bool)
  | jnum (n : Int)
  | jstr (s : List Char)
  | jarr (xs : List Jval)
  | jobj (kvs : List (List Char × Jval))

def digitChar : Nat → Char
  | 0 => '0'
  | 1 => '1'
  | 2 => '2'
  | 3 => '3'
  | 4 => '4'
  | 5 => '5'
  | 6 => '6'
  | 7 => '7'
  | 8 => '8'
  | _ => '9'

/-- Decimal digits of a natural number, most significant first. -/
def natToDigits (n : Nat) : List Char :=
  if _h : n < 10 then [digitChar n]
  else natToDigits (n / 10) ++ [digitChar (n % 10)]
termination_by n
decreasing_by exact Nat.div_lt_self (by omega) (by omega)

/-- `repr` of a Python int, as printed by `json.dumps`. -/
def intToChars (n : Int) : List Char :=
  if n < 0 then '-' :: natToDigits n.natAbs else natToDigits n.toNat

/-- `json.dumps` escaping of one string character (the `"`/`\` part, which
is all of it on the printable-ASCII fragment). -/
def escChar (c : Char) : List Char :=
  if c = '"' then ['\\', '"'] else if c = '\\' then ['\\', '\\'] else [c]

/-- Body of a dumped string: escaped characters, then the closing quote. -/
def escBody : List Char → List Char
  | [] => ['"']
  | c :: rest => escChar c ++ escBody rest

def escStr (s : List Char) : List Char := '"' :: escBody s

mutual
/-- `json.dumps(x)` with the default separators `", "` and `": "`. -/
def dumps : Jval → List Char
  | .jnull => ['n', 'u', 'l', 'l']
  | .jbool true => ['t', 'r', 'u', 'e']
  | .jbool false => ['f', 'a', 'l', 's', 'e']
  | .jnum n => intToChars n
  | .jstr s => escStr s
  | .jarr xs => '[' :: (dumpsArr xs ++ [']'])
  | .jobj kvs => '{' :: (dumpsObj kvs ++ ['}'])
def dumpsArr : List Jval → List Char
  | [] => []
  | x :: xs => dumps x ++ dumpsTailA xs
def dumpsTailA : List Jval → List Char
  | [] => []
  | x :: xs => ',' :: ' ' :: (dumps x ++ dumpsTailA xs)
def dumpsObj : List (List Char × Jval) → List Char
  | [] => []
  | (k, v) :: kvs => escStr k ++ ':' :: ' ' :: (dumps v ++ dumpsTailO kvs)
def dumpsTailO : List (List Char × Jval) → List Char
  | [] => []
  | (k, v) :: kvs =>
      ',' :: ' ' :: (escStr k ++ ':' :: ' ' :: (dumps v ++ dumpsTailO kvs))
end

def plainChar (c : Char) : Bool := 32 ≤ c.toNat && c.toNat ≤ 126

mutual
/-- The printable-ASCII fragment on which `dumps` agrees with CPython's
`json.dumps` (which `\uXXXX`-escapes everything else). -/
def Jwf : Jval → Bool
  | .jnull => true
  | .jbool _ => true
  | .jnum _ => true
  | .jstr s => s.all plainChar
  | .jarr xs => JwfArr xs
  | .jobj kvs => JwfObj kvs
def JwfArr : List Jval → Bool
  | [] => true
  | x :: xs => Jwf x && JwfArr xs
def JwfObj : List (List Char × Jval) → Bool
  | [] => true
  | (k, v) :: kvs => k.all plainChar && Jwf v && JwfObj kvs
end

/-- JSON whitespace accepted between tokens by `json.loads`. -/
def isJsonWs (c : Char) : Bool :=
  c == ' ' || c == '\t' || c == '\n' || c == '\r'

def skipWs (cs : List Char) : List Char := cs.dropWhile isJsonWs

def isDigitCh (c : Char) : Bool := 48 ≤ c.toNat && c.toNat ≤ 57

def digitVal (c : Char) : Nat := c.toNat - 48

def parseDigits : List Char → Nat → Nat × List Char
  | [], acc => (acc, [])
  | c :: rest, acc =>
      if isDigitCh c then parseDigits rest (acc * 10 + digitVal c)
      else (acc, c :: rest)

def parseNat : List Char → Option (Nat × List Char)
  | [] => none
  | c :: rest => if isDigitCh c then some (parseDigits (c :: rest) 0) else none

/-- Match a literal keyword tail, returning the remaining input. -/
def stripPre : List Char → List Char → Option (List Char)
  | [], cs => some cs
  | _ :: _, [] => none
  | p :: ps, c :: cs => if c = p then stripPre ps cs else none

/-- Body of a JSON string after the opening quote, undoing `escChar`. -/
def parseStrBody : List Char → Option (List Char × List Char)
  | [] => none
  | c :: rest =>
      if c = '"' then some ([], rest)
      else if c = '\\' then
        match rest with
        | [] => none
        | e :: rest2 =>
            if e = '"' ∨ e = '\\' then
              (parseStrBody rest2).map (fun p => (e :: p.1, p.2))
            else none
      else (parseStrBody rest).map (fun p => (c :: p.1, p.2))

mutual
/-- One JSON value (fuel-indexed recursive descent). -/
def parseVal : Nat → List Char → Option (Jval × List Char)
  | 0, _ => none
  | fuel + 1, cs =>
      match skipWs cs with
      | [] => none
      | c :: rest =>
          if c = 'n' then
            (stripPre ['u', 'l', 'l'] rest).map (fun r => (.jnull, r))
          else if c = 't' then
            (stripPre ['r', 'u', 'e'] rest).map (fun r => (.jbool true, r))
          else if c = 'f' then
            (stripPre ['a', 'l', 's', 'e'] rest).map (fun r => (.jbool false, r))
          else if c = '"' then
            (parseStrBody rest).map (fun p => (.jstr p.1, p.2))
          else if c = '[' then parseArr fuel rest
          else if c = '{' then parseObj fuel rest
          else if c = '-' then
            (parseNat rest).map (fun p => (.jnum (-(p.1 : Int)), p.2))
          else if isDigitCh c then
            (parseNat (c :: rest)).map (fun p => (.jnum (p.1 : Int), p.2))
          else none
/-- Array elements after `[`. -/
def parseArr : Nat → List Char → Option (Jval × List Char)
  | 0, _ => none
  | fuel + 1, cs =>
      match skipWs cs with
      | [] => none
      | c :: rest =>
          if c = ']' then some (.jarr [], rest)
          else
            (parseVal fuel (c :: rest)).bind (fun p =>
              (parseArrRest fuel p.2).map (fun q => (.jarr (p.1 :: q.1), q.2)))
/-- `, element`-or-`]` continuation of an array. -/
def parseArrRest : Nat → List Char → Option (List Jval × List Char)
  | 0, _ => none
  | fuel + 1, cs =>
      match skipWs cs with
      | [] => none
      | c :: rest =>
          if c = ']' then some ([], rest)
          else if c = ',' then
            (parseVal fuel rest).bind (fun p =>
              (parseArrRest fuel p.2).map (fun q => (p.1 :: q.1, q.2)))
          else none
/-- Object members after `{`. -/
def parseObj : Nat → List Char → Option (Jval × List Char)
  | 0, _ => none
  | fuel + 1, cs =>
      match skipWs cs with
      | [] => none
      | c :: rest =>
          if c = '}' then some (.jobj [], rest)
          else if c = '"' then
            (parseStrBody rest).bind (fun kp =>
              match skipWs kp.2 with
              | c2 :: r2 =>
                  if c2 = ':' then
                    (parseVal fuel r2).bind (fun vp =>
                      (parseObjRest fuel vp.2).map
                        (fun op => (.jobj ((kp.1, vp.1) :: op.1), op.2)))
                  else none
              | [] => none)
          else none
/-- `, member`-or-`}` continuation of an object. -/
def parseObjRest : Nat → List Char → Option (List (List Char × Jval) × List Char)
  | 0, _ => none
  | fuel + 1, cs =>
      match skipWs cs with
      | [] => none
      | c :: rest =>
          if c = '}' then some ([], rest)
          else if c = ',' then
            match skipWs rest with
            | c1 :: r0 =>
                if c1 = '"' then
                  (parseStrBody r0).bind (fun kp =>
                    match skipWs kp.2 with
                    | c2 :: r2 =>
                        if c2 = ':' then
                          (parseVal fuel r2).bind (fun vp =>
                            (parseObjRest fuel vp.2).map
                              (fun op => ((kp.1, vp.1) :: op.1, op.2)))
                        else none
                    | [] => none)
                else none
            | [] => none
          else none
end

/-- `json.loads`: one value, then only whitespace may remain. -/
def json_loads (cs : List Char) : Option Jval :=
  (parseVal (cs.length + 1) cs).bind
    (fun p => if skipWs p.2 = [] then some p.1 else none)

/-- Whitespace removed by Python's `str.strip()`. -/
def isPyWs (c : Char) : Bool :=
  c == ' ' || c == '\t' || c == '\n' || c == '\r' || c == '\x0b' || c == '\x0c'

/-- Python `str.strip()`. -/
def pyStrip (cs : List Char) : List Char :=
  ((cs.dropWhile isPyWs).reverse.dropWhile isPyWs).reverse

/-- The backtick character. -/
def bq : Char := Char.ofNat 96

/-- The 7-character opening fence checked by `content.startswith`. -/
def jsonFencePre : List Char := [bq, bq, bq, 'j', 's', 'o', 'n']

/-- The bare 3-character fence. -/
def fencePre : List Char := [bq, bq, bq]

/-- `parse_json_markdown(text)`: strip, drop a leading code fence
(7 characters for the json-tagged one, else 3), drop a trailing fence,
strip again, `json.loads`. -/
def parse_json_markdown (text : List Char) : Option Jval :=
  let content0 := pyStrip text
  let content1 :=
    if jsonFencePre.isPrefixOf content0 then content0.drop 7
    else if fencePre.isPrefixOf content0 then content0.drop 3
    else content0
  let content2 :=
    if fencePre.isSuffixOf content1 then content1.take (content1.length - 3)
    else content1
  json_loads (pyStrip content2)

mutual
/-- Fuel sufficient for `parseVal` on `dumps v`. -/
def needVal : Jval → Nat
  | .jarr xs => 1 + needArr xs
  | .jobj kvs => 1 + needObj kvs
  | _ => 1
def needArr : List Jval → Nat
  | [] => 1
  | x :: xs => 1 + max (needVal x) (needTailA xs)
def needTailA : List Jval → Nat
  | [] => 1
  | x :: xs => 1 + max (needVal x) (needTailA xs)
def needObj : List (List Char × Jval) → Nat
  | [] => 1
  | (_, v) :: kvs => 1 + max (needVal v) (needTailO kvs)
def needTailO : List (List Char × Jval) → Nat
  | [] => 1
  | (_, v) :: kvs => 1 + max (needVal v) (needTailO kvs)
end

/-- `true` iff the input does not continue a decimal literal (empty or
non-digit head): where a dumped number may legally stop. -/
def delimOk : List Char → Bool
  | [] => true
  | c :: _ => !(isDigitCh c)

theorem stripPre_self (p : List Char) : ∀ r, stripPre p (p ++ r) = some r := by
  induction p with
  | nil => intro r; rfl
  | cons c ps ih => intro r; simp [stripPre, ih r]

theorem skipWs_not_ws (c : Char) (cs : List Char) (h : isJsonWs c = false) :
    skipWs (c :: cs) = c :: cs := by
  simp [skipWs, List.dropWhile_cons, h]

theorem skipWs_append (ws : List Char) (t : List Char)
    (h : ∀ c ∈ ws, isJsonWs c = true) : skipWs (ws ++ t) = skipWs t := by
  induction ws with
  | nil => simp
  | cons c cs ih =>
      simp only [List.cons_append, skipWs, List.dropWhile_cons,
        h c (by simp)]
      simpa [skipWs] using ih (fun x hx => h x (by simp [hx]))

theorem isDigitCh_digitChar (d : Nat) : isDigitCh (digitChar d) = true := by
  unfold digitChar
  split <;> decide

theorem digitVal_digitChar (d : Nat) (h : d < 10) :
    digitVal (digitChar d) = d := by
  interval_cases d <;> decide

theorem natToDigits_ne_nil (n : Nat) : natToDigits n ≠ [] := by
  rw [natToDigits]
  split <;> simp

theorem natToDigits_all_digits (n : Nat) :
    ∀ c ∈ natToDigits n, isDigitCh c = true := by
  induction n using Nat.strong_induction_on with
  | _ n ih =>
      rw [natToDigits]
      split
      · intro c hc
        simp only [List.mem_singleton] at hc
        subst hc
        exact isDigitCh_digitChar n
      · rename_i h
        intro c hc
        rcases List.mem_append.1 hc with hc | hc
        · exact ih (n / 10) (Nat.div_lt_self (by omega) (by omega)) c hc
        · simp only [List.mem_singleton] at hc
          subst hc
          exact isDigitCh_digitChar _

theorem natToDigits_head (n : Nat) :
    ∃ c cs, natToDigits n = c :: cs ∧ isDigitCh c = true := by
  obtain ⟨c, cs, h⟩ : ∃ c cs, natToDigits n = c :: cs := by
    cases h : natToDigits n with
    | nil => exact absurd h (natToDigits_ne_nil n)
    | cons c cs => exact ⟨c, cs, rfl⟩
  exact ⟨c, cs, h, natToDigits_all_digits n c (by rw [h]; simp)⟩

/-- Accumulator step of `parseDigits`. -/
def digitStep (a : Nat) (c : Char) : Nat := a * 10 + digitVal c

theorem parseDigits_digits (ds : List Char)
    (hds : ∀ c ∈ ds, isDigitCh c = true) :
    ∀ (r : List Char) (acc : Nat),
      parseDigits (ds ++ r) acc = parseDigits r (ds.foldl digitStep acc) := by
  induction ds with
  | nil => intro r acc; rfl
  | cons c cs ih =>
      intro r acc
      simp only [List.cons_append, List.foldl_cons]
      rw [parseDigits, if_pos (hds c (by simp))]
      exact ih (fun x hx => hds x (by simp [hx])) r (digitStep acc c)

theorem foldl_natToDigits (n : Nat) : ∀ acc,
    (natToDigits n).foldl digitStep acc =
      acc * 10 ^ (natToDigits n).length + n := by
  induction n using Nat.strong_induction_on with
  | _ n ih =>
      intro acc
      rw [natToDigits]
      split
      · rename_i h
        simp [digitStep, digitVal_digitChar n h]
      · rename_i h
        rw [List.foldl_append,
          ih (n / 10) (Nat.div_lt_self (by omega) (by omega)) acc]
        simp only [List.foldl_cons, List.foldl_nil, List.length_append,
          List.length_singleton]
        rw [digitStep, digitVal_digitChar (n % 10) (Nat.mod_lt n (by omega))]
        have h1 : (n / 10) * 10 + n % 10 = n := by omega
        calc (acc * 10 ^ (natToDigits (n / 10)).length + n / 10) * 10 + n % 10
            = acc * (10 ^ (natToDigits (n / 10)).length * 10) +
                ((n / 10) * 10 + n % 10) := by ring
          _ = acc * 10 ^ ((natToDigits (n / 10)).length + 1) + n := by
              rw [pow_succ, h1]

theorem parseDigits_delim (r : List Char) (acc : Nat)
    (h : delimOk r = true) : parseDigits r acc = (acc, r) := by
  cases r with
  | nil => rfl
  | cons c rest =>
      have hc : isDigitCh c = false := by simpa [delimOk] using h
      rw [parseDigits, if_neg (by simp [hc])]

theorem parseNat_natToDigits (n : Nat) (r : List Char)
    (h : delimOk r = true) : parseNat (natToDigits n ++ r) = some (n, r) := by
  obtain ⟨c, cs, hd, hdig⟩ := natToDigits_head n
  rw [hd, List.cons_append, parseNat, if_pos hdig, ← List.cons_append, ← hd,
    parseDigits_digits (natToDigits n) (natToDigits_all_digits n) r 0,
    parseDigits_delim r _ h, foldl_natToDigits n 0]
  simp

theorem parseStrBody_escBody (s : List Char) :
    ∀ r, parseStrBody (escBody s ++ r) = some (s, r) := by
  induction s with
  | nil =>
      intro r
      show parseStrBody ('"' :: r) = some ([], r)
      rw [parseStrBody.eq_def]
      simp
  | cons c cs ih =>
      intro r
      by_cases hq : c = '"'
      · subst hq
        simp [escBody, escChar, parseStrBody, ih r]
      · by_cases hb : c = '\\'
        · subst hb
          simp [escBody, escChar, parseStrBody, ih r]
        · show parseStrBody ((escChar c ++ escBody cs) ++ r) = some (c :: cs, r)
          rw [escChar, if_neg hq, if_neg hb, List.singleton_append,
            List.cons_append, parseStrBody.eq_def]
          simp [hq, hb, ih r]

/-- First characters on which no `dumps` output ever starts clash with the
parser's structural tokens or fences. -/
abbrev headGood (c : Char) : Prop :=
  isJsonWs c = false ∧ isPyWs c = false ∧ c ≠ bq ∧ c ≠ ']' ∧ c ≠ '}'

abbrev lastGood (c : Char) : Prop := isPyWs c = false ∧ c ≠ bq

theorem digit_headGood (c : Char) (h : isDigitCh c = true) : headGood c := by
  refine ⟨?_, ?_, ?_, ?_, ?_⟩
  · cases hc : isJsonWs c
    · rfl
    · exfalso
      have hm : c = ' ' ∨ c = '\t' ∨ c = '\n' ∨ c = '\r' := by
        have := hc
        simp [isJsonWs] at this
        tauto
      rcases hm with h' | h' | h' | h' <;> (subst h'; exact absurd h (by decide))
  · cases hc : isPyWs c
    · rfl
    · exfalso
      have hm : c = ' ' ∨ c = '\t' ∨ c = '\n' ∨ c = '\r' ∨ c = '\x0b' ∨
          c = '\x0c' := by
        have := hc
        simp [isPyWs] at this
        tauto
      rcases hm with h' | h' | h' | h' | h' | h' <;>
        (subst h'; exact absurd h (by decide))
  · exact fun he => absurd (he ▸ h) (by decide)
  · exact fun he => absurd (he ▸ h) (by decide)
  · exact fun he => absurd (he ▸ h) (by decide)

theorem digit_not_kw (c : Char) (h : isDigitCh c = true) :
    c ≠ 'n' ∧ c ≠ 't' ∧ c ≠ 'f' ∧ c ≠ '"' ∧ c ≠ '[' ∧ c ≠ '{' ∧ c ≠ '-' := by
  refine ⟨?_, ?_, ?_, ?_, ?_, ?_, ?_⟩ <;>
    exact fun he => absurd (he ▸ h) (by decide)

theorem dumps_head (v : Jval) : ∃ c cs, dumps v = c :: cs ∧ headGood c := by
  cases v with
  | jnull => exact ⟨'n', ['u', 'l', 'l'], by rw [dumps], by decide⟩
  | jbool b =>
      cases b with
      | true => exact ⟨'t', ['r', 'u', 'e'], by rw [dumps], by decide⟩
      | false => exact ⟨'f', ['a', 'l', 's', 'e'], by rw [dumps], by decide⟩
  | jnum n =>
      by_cases hn : n < 0
      · exact ⟨'-', natToDigits n.natAbs,
          by rw [dumps, intToChars, if_pos hn], by decide⟩
      · obtain ⟨c, cs, hd, hdig⟩ := natToDigits_head n.toNat
        exact ⟨c, cs, by rw [dumps, intToChars, if_neg hn, hd],
          digit_headGood c hdig⟩
  | jstr s => exact ⟨'"', escBody s, by rw [dumps, escStr], by decide⟩
  | jarr xs => exact ⟨'[', dumpsArr xs ++ [']'], by rw [dumps], by decide⟩
  | jobj kvs => exact ⟨'{', dumpsObj kvs ++ ['}'], by rw [dumps], by decide⟩

theorem natToDigits_rev_head (n : Nat) :
    ∃ c cs, (natToDigits n).reverse = c :: cs ∧ isDigitCh c = true := by
  rw [natToDigits]
  split
  · exact ⟨digitChar n, [], by simp, isDigitCh_digitChar n⟩
  · exact ⟨digitChar (n % 10), (natToDigits (n / 10)).reverse,
      by simp, isDigitCh_digitChar _⟩

theorem escBody_rev (s : List Char) : ∃ cs, (escBody s).reverse = '"' :: cs := by
  induction s with
  | nil => exact ⟨[], rfl⟩
  | cons c cs ih =>
      obtain ⟨t, ht⟩ := ih
      refine ⟨t ++ (escChar c).reverse, ?_⟩
      rw [escBody, List.reverse_append, ht]
      simp

theorem dumps_last (v : Jval) :
    ∃ c cs, (dumps v).reverse = c :: cs ∧ lastGood c := by
  cases v with
  | jnull => exact ⟨'l', ['l', 'u', 'n'], by rw [dumps]; rfl, by decide⟩
  | jbool b =>
      cases b with
      | true => exact ⟨'e', ['u', 'r', 't'], by rw [dumps]; rfl, by decide⟩
      | false => exact ⟨'e', ['s', 'l', 'a', 'f'], by rw [dumps]; rfl, by decide⟩
  | jnum n =>
      by_cases hn : n < 0
      · obtain ⟨c, cs, hrev, hdig⟩ := natToDigits_rev_head n.natAbs
        refine ⟨c, cs ++ ['-'], ?_, (digit_headGood c hdig).2.1,
          (digit_headGood c hdig).2.2.1⟩
        rw [dumps, intToChars, if_pos hn, List.reverse_cons, hrev]
        simp
      · obtain ⟨c, cs, hrev, hdig⟩ := natToDigits_rev_head n.toNat
        refine ⟨c, cs, ?_, (digit_headGood c hdig).2.1,
          (digit_headGood c hdig).2.2.1⟩
        rw [dumps, intToChars, if_neg hn, hrev]
  | jstr s =>
      obtain ⟨t, ht⟩ := escBody_rev s
      refine ⟨'"', t ++ ['"'], ?_, by decide⟩
      rw [dumps, escStr, List.reverse_cons, ht]
      simp
  | jarr xs =>
      refine ⟨']', (dumpsArr xs).reverse ++ ['['], ?_, by decide⟩
      rw [dumps, List.reverse_cons, List.reverse_append]
      simp
  | jobj kvs =>
      refine ⟨'}', (dumpsObj kvs).reverse ++ ['{'], ?_, by decide⟩
      rw [dumps, List.reverse_cons, List.reverse_append]
      simp

theorem stripPre_ull (r : List Char) :
    stripPre ['u', 'l', 'l'] ('u' :: 'l' :: 'l' :: r) = some r := by
  simpa using stripPre_self ['u', 'l', 'l'] r

theorem stripPre_rue (r : List Char) :
    stripPre ['r', 'u', 'e'] ('r' :: 'u' :: 'e' :: r) = some r := by
  simpa using stripPre_self ['r', 'u', 'e'] r

theorem stripPre_alse (r : List Char) :
    stripPre ['a', 'l', 's', 'e'] ('a' :: 'l' :: 's' :: 'e' :: r) = some r := by
  simpa using stripPre_self ['a', 'l', 's', 'e'] r

theorem parseVal_null (fuel : Nat) (cs r : List Char)
    (h : skipWs cs = 'n' :: ('u' :: 'l' :: 'l' :: r)) :
    parseVal (fuel + 1) cs = some (.jnull, r) := by
  show parseVal (Nat.succ fuel) cs = some (.jnull, r)
  rw [parseVal.eq_def]
  simp [h, stripPre_ull r]

theorem parseVal_true (fuel : Nat) (cs r : List Char)
    (h : skipWs cs = 't' :: ('r' :: 'u' :: 'e' :: r)) :
    parseVal (fuel + 1) cs = some (.jbool true, r) := by
  show parseVal (Nat.succ fuel) cs = some (.jbool true, r)
  rw [parseVal.eq_def]
  simp [h, stripPre_rue r]

theorem parseVal_false (fuel : Nat) (cs r : List Char)
    (h : skipWs cs = 'f' :: ('a' :: 'l' :: 's' :: 'e' :: r)) :
    parseVal (fuel + 1) cs = some (.jbool false, r) := by
  show parseVal (Nat.succ fuel) cs = some (.jbool false, r)
  rw [parseVal.eq_def]
  simp [h, stripPre_alse r]

theorem parseVal_str (fuel : Nat) (cs rest s r : List Char)
    (h : skipWs cs = '"' :: rest) (hs : parseStrBody rest = some (s, r)) :
    parseVal (fuel + 1) cs = some (.jstr s, r) := by
  show parseVal (Nat.succ fuel) cs = some (.jstr s, r)
  rw [parseVal.eq_def]
  simp [h, hs]

theorem parseVal_arr (fuel : Nat) (cs rest : List Char)
    (h : skipWs cs = '[' :: rest) :
    parseVal (fuel + 1) cs = parseArr fuel rest := by
  show parseVal (Nat.succ fuel) cs = parseArr fuel rest
  rw [parseVal.eq_def]
  simp [h]

theorem parseVal_obj (fuel : Nat) (cs rest : List Char)
    (h : skipWs cs = '{' :: rest) :
    parseVal (fuel + 1) cs = parseObj fuel rest := by
  show parseVal (Nat.succ fuel) cs = parseObj fuel rest
  rw [parseVal.eq_def]
  simp [h]

theorem parseVal_neg (fuel : Nat) (cs rest r : List Char) (m : Nat)
    (h : skipWs cs = '-' :: rest) (hn : parseNat rest = some (m, r)) :
    parseVal (fuel + 1) cs = some (.jnum (-(m : Int)), r) := by
  show parseVal (Nat.succ fuel) cs = some (.jnum (-(m : Int)), r)
  rw [parseVal.eq_def]
  simp [h, hn]

theorem parseVal_digit (fuel : Nat) (cs rest r : List Char) (c : Char) (m : Nat)
    (hd : isDigitCh c = true) (h : skipWs cs = c :: rest)
    (hn : parseNat (c :: rest) = some (m, r)) :
    parseVal (fuel + 1) cs = some (.jnum (m : Int), r) := by
  obtain ⟨k1, k2, k3, k4, k5, k6, k7⟩ := digit_not_kw c hd
  show parseVal (Nat.succ fuel) cs = some (.jnum (m : Int), r)
  rw [parseVal.eq_def]
  simp [h, k1, k2, k3, k4, k5, k6, k7, hd, hn]

theorem parseArr_nil (fuel : Nat) (cs rest : List Char)
    (h : skipWs cs = ']' :: rest) :
    parseArr (fuel + 1) cs = some (.jarr [], rest) := by
  show parseArr (Nat.succ fuel) cs = some (.jarr [], rest)
  rw [parseArr.eq_def]
  simp [h]

theorem parseArr_cons (fuel : Nat) (cs rest r r2 : List Char) (c : Char)
    (v : Jval) (vs : List Jval) (h : skipWs cs = c :: rest) (hne : c ≠ ']')
    (hv : parseVal fuel (c :: rest) = some (v, r))
    (ht : parseArrRest fuel r = some (vs, r2)) :
    parseArr (fuel + 1) cs = some (.jarr (v :: vs), r2) := by
  show parseArr (Nat.succ fuel) cs = some (.jarr (v :: vs), r2)
  rw [parseArr.eq_def]
  simp [h, hne, hv, ht]

theorem parseArrRest_nil (fuel : Nat) (cs rest : List Char)
    (h : skipWs cs = ']' :: rest) :
    parseArrRest (fuel + 1) cs = some ([], rest) := by
  show parseArrRest (Nat.succ fuel) cs = some ([], rest)
  rw [parseArrRest.eq_def]
  simp [h]

theorem parseArrRest_cons (fuel : Nat) (cs rest r r2 : List Char) (v : Jval)
    (vs : List Jval) (h : skipWs cs = ',' :: rest)
    (hv : parseVal fuel rest = some (v, r))
    (ht : parseArrRest fuel r = some (vs, r2)) :
    parseArrRest (fuel + 1) cs = some (v :: vs, r2) := by
  show parseArrRest (Nat.succ fuel) cs = some (v :: vs, r2)
  rw [parseArrRest.eq_def]
  simp [h, hv, ht]

theorem parseObj_nil (fuel : Nat) (cs rest : List Char)
    (h : skipWs cs = '}' :: rest) :
    parseObj (fuel + 1) cs = some (.jobj [], rest) := by
  show parseObj (Nat.succ fuel) cs = some (.jobj [], rest)
  rw [parseObj.eq_def]
  simp [h]

theorem parseObj_cons (fuel : Nat) (cs rest k r1 r2 r3 r4 : List Char)
    (v : Jval) (kvs : List (List Char × Jval)) (h : skipWs cs = '"' :: rest)
    (hk : parseStrBody rest = some (k, r1)) (h2 : skipWs r1 = ':' :: r2)
    (hv : parseVal fuel r2 = some (v, r3))
    (ht : parseObjRest fuel r3 = some (kvs, r4)) :
    parseObj (fuel + 1) cs = some (.jobj ((k, v) :: kvs), r4) := by
  show parseObj (Nat.succ fuel) cs = some (.jobj ((k, v) :: kvs), r4)
  rw [parseObj.eq_def]
  simp [h, hk, h2, hv, ht]

theorem parseObjRest_nil (fuel : Nat) (cs rest : List Char)
    (h : skipWs cs = '}' :: rest) :
    parseObjRest (fuel + 1) cs = some ([], rest) := by
  show parseObjRest (Nat.succ fuel) cs = some ([], rest)
  rw [parseObjRest.eq_def]
  simp [h]

theorem parseObjRest_cons (fuel : Nat) (cs rest r0 k r1 r2 r3 r4 : List Char)
    (v : Jval) (kvs : List (List Char × Jval)) (h : skipWs cs = ',' :: rest)
    (h1 : skipWs rest = '"' :: r0) (hk : parseStrBody r0 = some (k, r1))
    (h2 : skipWs r1 = ':' :: r2) (hv : parseVal fuel r2 = some (v, r3))
    (ht : parseObjRest fuel r3 = some (kvs, r4)) :
    parseObjRest (fuel + 1) cs = some ((k, v) :: kvs, r4) := by
  show parseObjRest (Nat.succ fuel) cs = some ((k, v) :: kvs, r4)
  rw [parseObjRest.eq_def]
  simp [h, h1, hk, h2, hv, ht]

abbrev WsJ (l : List Char) : Prop := ∀ c ∈ l, isJsonWs c = true

theorem wsj_nil : WsJ ([] : List Char) := by
  intro c hc
  exact absurd hc (List.not_mem_nil c)

theorem wsj_space : WsJ [' '] := by
  intro c hc
  have hc' : c = ' ' := by simpa using hc
  subst hc'
  rfl

theorem skipWs_ws_cons (ws : List Char) (hws : WsJ ws) (c : Char)
    (cs : List Char) (hc : isJsonWs c = false) :
    skipWs (ws ++ (c :: cs)) = c :: cs := by
  rw [skipWs_append ws _ hws, skipWs_not_ws c cs hc]

theorem delimOk_tailA (xs : List Jval) (r : List Char) :
    delimOk (dumpsTailA xs ++ (']' :: r)) = true := by
  cases xs with
  | nil => rw [dumpsTailA]; simp [delimOk, isDigitCh]
  | cons x xs' => rw [dumpsTailA]; simp [delimOk, isDigitCh]

theorem delimOk_tailO (kvs : List (List Char × Jval)) (r : List Char) :
    delimOk (dumpsTailO kvs ++ ('}' :: r)) = true := by
  cases kvs with
  | nil => rw [dumpsTailO]; simp [delimOk, isDigitCh]
  | cons kv kvs' =>
      obtain ⟨k, v⟩ := kv
      rw [dumpsTailO]; simp [delimOk, isDigitCh]

/-- `parseVal` recovers `v` from `dumps v` (with optional leading JSON
whitespace and a non-digit-headed remainder), given fuel at least
`needVal v`. -/
abbrev PV (v : Jval) : Prop :=
  ∀ fuel, needVal v ≤ fuel → ∀ ws r, WsJ ws → delimOk r = true →
    parseVal fuel (ws ++ (dumps v ++ r)) = some (v, r)

abbrev PA (xs : List Jval) : Prop :=
  ∀ fuel, needArr xs ≤ fuel → ∀ r,
    parseArr fuel (dumpsArr xs ++ (']' :: r)) = some (.jarr xs, r)

abbrev PTA (xs : List Jval) : Prop :=
  ∀ fuel, needTailA xs ≤ fuel → ∀ r,
    parseArrRest fuel (dumpsTailA xs ++ (']' :: r)) = some (xs, r)

abbrev PO (kvs : List (List Char × Jval)) : Prop :=
  ∀ fuel, needObj kvs ≤ fuel → ∀ r,
    parseObj fuel (dumpsObj kvs ++ ('}' :: r)) = some (.jobj kvs, r)

abbrev PTO (kvs : List (List Char × Jval)) : Prop :=
  ∀ fuel, needTailO kvs ≤ fuel → ∀ r,
    parseObjRest fuel (dumpsTailO kvs ++ ('}' :: r)) = some (kvs, r)

theorem parse_dumps_all (N : Nat) :
    (∀ v : Jval, sizeOf v ≤ N → PV v) ∧
    (∀ xs : List Jval, sizeOf xs ≤ N → PA xs) ∧
    (∀ xs : List Jval, sizeOf xs ≤ N → PTA xs) ∧
    (∀ kvs : List (List Char × Jval), sizeOf kvs ≤ N → PO kvs) ∧
    (∀ kvs : List (List Char × Jval), sizeOf kvs ≤ N → PTO kvs) := by
  induction N with
  | zero =>
      refine ⟨?_, ?_, ?_, ?_, ?_⟩ <;> intro t ht <;> exfalso <;>
        (cases t <;> simp at ht)
  | succ N ih =>
      obtain ⟨ihV, ihA, ihTA, ihO, ihTO⟩ := ih
      refine ⟨?_, ?_, ?_, ?_, ?_⟩
      · -- PV
        intro v hv
        cases v with
        | jnull =>
            intro fuel hf ws r hws hr
            obtain ⟨f, rfl⟩ : ∃ f, fuel = f + 1 :=
              ⟨fuel - 1, by have : 1 ≤ fuel := le_trans (by simp [needVal]) hf; omega⟩
            apply parseVal_null
            rw [dumps]
            simp only [List.cons_append, List.nil_append]
            exact skipWs_ws_cons ws hws _ _ (by decide)
        | jbool b =>
            intro fuel hf ws r hws hr
            obtain ⟨f, rfl⟩ : ∃ f, fuel = f + 1 :=
              ⟨fuel - 1, by have : 1 ≤ fuel := le_trans (by simp [needVal]) hf; omega⟩
            cases b with
            | true =>
                apply parseVal_true
                rw [dumps]
                simp only [List.cons_append, List.nil_append]
                exact skipWs_ws_cons ws hws _ _ (by decide)
            | false =>
                apply parseVal_false
                rw [dumps]
                simp only [List.cons_append, List.nil_append]
                exact skipWs_ws_cons ws hws _ _ (by decide)
        | jnum n =>
            intro fuel hf ws r hws hr
            obtain ⟨f, rfl⟩ : ∃ f, fuel = f + 1 :=
              ⟨fuel - 1, by have : 1 ≤ fuel := le_trans (by simp [needVal]) hf; omega⟩
            by_cases hn : n < 0
            · have hskip : skipWs (ws ++ (dumps (Jval.jnum n) ++ r)) =
                  '-' :: (natToDigits n.natAbs ++ r) := by
                rw [dumps, intToChars, if_pos hn]
                simp only [List.cons_append]
                exact skipWs_ws_cons ws hws _ _ (by decide)
              rw [parseVal_neg f _ (natToDigits n.natAbs ++ r) r n.natAbs hskip
                (parseNat_natToDigits _ r hr)]
              have hval : -((n.natAbs : Nat) : Int) = n := by omega
              rw [hval]
            · obtain ⟨c, cs, hd, hdig⟩ := natToDigits_head n.toNat
              have hskip : skipWs (ws ++ (dumps (Jval.jnum n) ++ r)) =
                  c :: (cs ++ r) := by
                rw [dumps, intToChars, if_neg hn, hd]
                simp only [List.cons_append]
                exact skipWs_ws_cons ws hws _ _ (digit_headGood c hdig).1
              have hpn : parseNat (c :: (cs ++ r)) = some (n.toNat, r) := by
                rw [show c :: (cs ++ r) = natToDigits n.toNat ++ r by
                  rw [hd, List.cons_append]]
                exact parseNat_natToDigits _ _ hr
              rw [parseVal_digit f _ (cs ++ r) r c n.toNat hdig hskip hpn]
              have hval : ((n.toNat : Nat) : Int) = n := by omega
              rw [hval]
        | jstr s =>
            intro fuel hf ws r hws hr
            obtain ⟨f, rfl⟩ : ∃ f, fuel = f + 1 :=
              ⟨fuel - 1, by have : 1 ≤ fuel := le_trans (by simp [needVal]) hf; omega⟩
            apply parseVal_str f _ (escBody s ++ r) s r
            · rw [dumps, escStr]
              simp only [List.cons_append]
              exact skipWs_ws_cons ws hws _ _ (by decide)
            · exact parseStrBody_escBody s r
        | jarr xs =>
            intro fuel hf ws r hws hr
            have hxs : sizeOf xs ≤ N := by
              have h' := hv
              simp only [Jval.jarr.sizeOf_spec] at h'
              omega
            have hf' : 1 + needArr xs ≤ fuel := by simpa [needVal] using hf
            obtain ⟨f, rfl⟩ : ∃ f, fuel = f + 1 := ⟨fuel - 1, by omega⟩
            have hskip : skipWs (ws ++ (dumps (Jval.jarr xs) ++ r)) =
                '[' :: ((dumpsArr xs ++ [']']) ++ r) := by
              rw [dumps]
              simp only [List.cons_append]
              exact skipWs_ws_cons ws hws _ _ (by decide)
            rw [parseVal_arr f _ _ hskip,
              show (dumpsArr xs ++ [']']) ++ r = dumpsArr xs ++ (']' :: r) by simp]
            exact ihA xs hxs f (by omega) r
        | jobj kvs =>
            intro fuel hf ws r hws hr
            have hkvs : sizeOf kvs ≤ N := by
              have h' := hv
              simp only [Jval.jobj.sizeOf_spec] at h'
              omega
            have hf' : 1 + needObj kvs ≤ fuel := by simpa [needVal] using hf
            obtain ⟨f, rfl⟩ : ∃ f, fuel = f + 1 := ⟨fuel - 1, by omega⟩
            have hskip : skipWs (ws ++ (dumps (Jval.jobj kvs) ++ r)) =
                '{' :: ((dumpsObj kvs ++ ['}']) ++ r) := by
              rw [dumps]
              simp only [List.cons_append]
              exact skipWs_ws_cons ws hws _ _ (by decide)
            rw [parseVal_obj f _ _ hskip,
              show (dumpsObj kvs ++ ['}']) ++ r = dumpsObj kvs ++ ('}' :: r) by simp]
            exact ihO kvs hkvs f (by omega) r
      · -- PA
        intro xs hxs
        cases xs with
        | nil =>
            intro fuel hf r
            obtain ⟨f, rfl⟩ : ∃ f, fuel = f + 1 :=
              ⟨fuel - 1, by have : 1 ≤ fuel := le_trans (by simp [needArr]) hf; omega⟩
            apply parseArr_nil
            rw [dumpsArr]
            simp only [List.nil_append]
            exact skipWs_not_ws _ _ (by decide)
        | cons x xs' =>
            intro fuel hf r
            have h1 : 1 + max (needVal x) (needTailA xs') ≤ fuel := by
              simpa [needArr] using hf
            obtain ⟨f, rfl⟩ : ∃ f, fuel = f + 1 := ⟨fuel - 1, by omega⟩
            have hm1 := le_max_left (needVal x) (needTailA xs')
            have hm2 := le_max_right (needVal x) (needTailA xs')
            have hsx : sizeOf x ≤ N ∧ sizeOf xs' ≤ N := by
              have h' := hxs
              simp only [List.cons.sizeOf_spec] at h'
              omega
            obtain ⟨c, cs, hd, hg⟩ := dumps_head x
            have hinput : dumpsArr (x :: xs') ++ (']' :: r) =
                c :: (cs ++ (dumpsTailA xs' ++ (']' :: r))) := by
              rw [dumpsArr, hd]
              simp
            have hskip : skipWs (dumpsArr (x :: xs') ++ (']' :: r)) =
                c :: (cs ++ (dumpsTailA xs' ++ (']' :: r))) := by
              rw [hinput]
              exact skipWs_not_ws _ _ hg.1
            have hv : parseVal f (c :: (cs ++ (dumpsTailA xs' ++ (']' :: r)))) =
                some (x, dumpsTailA xs' ++ (']' :: r)) := by
              have := ihV x hsx.1 f (by omega) [] (dumpsTailA xs' ++ (']' :: r))
                wsj_nil (delimOk_tailA xs' r)
              simpa [hd] using this
            have ht : parseArrRest f (dumpsTailA xs' ++ (']' :: r)) =
                some (xs', r) := ihTA xs' hsx.2 f (by omega) r
            exact parseArr_cons f _ _ _ _ c x xs' hskip hg.2.2.2.1 hv ht
      · -- PTA
        intro xs hxs
        cases xs with
        | nil =>
            intro fuel hf r
            obtain ⟨f, rfl⟩ : ∃ f, fuel = f + 1 :=
              ⟨fuel - 1, by have : 1 ≤ fuel := le_trans (by simp [needTailA]) hf; omega⟩
            apply parseArrRest_nil
            rw [dumpsTailA]
            simp only [List.nil_append]
            exact skipWs_not_ws _ _ (by decide)
        | cons x xs' =>
            intro fuel hf r
            have h1 : 1 + max (needVal x) (needTailA xs') ≤ fuel := by
              simpa [needTailA] using hf
            obtain ⟨f, rfl⟩ : ∃ f, fuel = f + 1 := ⟨fuel - 1, by omega⟩
            have hm1 := le_max_left (needVal x) (needTailA xs')
            have hm2 := le_max_right (needVal x) (needTailA xs')
            have hsx : sizeOf x ≤ N ∧ sizeOf xs' ≤ N := by
              have h' := hxs
              simp only [List.cons.sizeOf_spec] at h'
              omega
            have hinput : dumpsTailA (x :: xs') ++ (']' :: r) =
                ',' :: (' ' :: (dumps x ++ (dumpsTailA xs' ++ (']' :: r)))) := by
              rw [dumpsTailA]
              simp
            have hskip : skipWs (dumpsTailA (x :: xs') ++ (']' :: r)) =
                ',' :: (' ' :: (dumps x ++ (dumpsTailA xs' ++ (']' :: r)))) := by
              rw [hinput]
              exact skipWs_not_ws _ _ (by decide)
            have hv : parseVal f (' ' :: (dumps x ++ (dumpsTailA xs' ++ (']' :: r)))) =
                some (x, dumpsTailA xs' ++ (']' :: r)) := by
              have := ihV x hsx.1 f (by omega) [' ']
                (dumpsTailA xs' ++ (']' :: r)) wsj_space (delimOk_tailA xs' r)
              simpa using this
            have ht : parseArrRest f (dumpsTailA xs' ++ (']' :: r)) =
                some (xs', r) := ihTA xs' hsx.2 f (by omega) r
            exact parseArrRest_cons f _ _ _ _ x xs' hskip hv ht
      · -- PO
        intro kvs hkvs
        cases kvs with
        | nil =>
            intro fuel hf r
            obtain ⟨f, rfl⟩ : ∃ f, fuel = f + 1 :=
              ⟨fuel - 1, by have : 1 ≤ fuel := le_trans (by simp [needObj]) hf; omega⟩
            apply parseObj_nil
            rw [dumpsObj]
            simp only [List.nil_append]
            exact skipWs_not_ws _ _ (by decide)
        | cons kv kvs' =>
            obtain ⟨k, v⟩ := kv
            intro fuel hf r
            have h1 : 1 + max (needVal v) (needTailO kvs') ≤ fuel := by
              simpa [needObj] using hf
            obtain ⟨f, rfl⟩ : ∃ f, fuel = f + 1 := ⟨fuel - 1, by omega⟩
            have hm1 := le_max_left (needVal v) (needTailO kvs')
            have hm2 := le_max_right (needVal v) (needTailO kvs')
            have hsx : sizeOf v ≤ N ∧ sizeOf kvs' ≤ N := by
              have h' := hkvs
              simp only [List.cons.sizeOf_spec, Prod.mk.sizeOf_spec] at h'
              omega
            have hinput : dumpsObj ((k, v) :: kvs') ++ ('}' :: r) =
                '"' :: (escBody k ++
                  (':' :: (' ' :: (dumps v ++ (dumpsTailO kvs' ++ ('}' :: r)))))) := by
              rw [dumpsObj, escStr]
              simp
            have hskip : skipWs (dumpsObj ((k, v) :: kvs') ++ ('}' :: r)) =
                '"' :: (escBody k ++
                  (':' :: (' ' :: (dumps v ++ (dumpsTailO kvs' ++ ('}' :: r)))))) := by
              rw [hinput]
              exact skipWs_not_ws _ _ (by decide)
            have hk : parseStrBody (escBody k ++
                (':' :: (' ' :: (dumps v ++ (dumpsTailO kvs' ++ ('}' :: r)))))) =
                some (k, ':' :: (' ' :: (dumps v ++ (dumpsTailO kvs' ++ ('}' :: r))))) :=
              parseStrBody_escBody k _
            have h2 : skipWs (':' :: (' ' :: (dumps v ++ (dumpsTailO kvs' ++ ('}' :: r))))) =
                ':' :: (' ' :: (dumps v ++ (dumpsTailO kvs' ++ ('}' :: r)))) :=
              skipWs_not_ws _ _ (by decide)
            have hv : parseVal f (' ' :: (dumps v ++ (dumpsTailO kvs' ++ ('}' :: r)))) =
                some (v, dumpsTailO kvs' ++ ('}' :: r)) := by
              have := ihV v hsx.1 f (by omega) [' ']
                (dumpsTailO kvs' ++ ('}' :: r)) wsj_space (delimOk_tailO kvs' r)
              simpa using this
            have ht : parseObjRest f (dumpsTailO kvs' ++ ('}' :: r)) =
                some (kvs', r) := ihTO kvs' hsx.2 f (by omega) r
            exact parseObj_cons f _ _ k _ _ _ _ v kvs' hskip hk h2 hv ht
      · -- PTO
        intro kvs hkvs
        cases kvs with
        | nil =>
            intro fuel hf r
            obtain ⟨f, rfl⟩ : ∃ f, fuel = f + 1 :=
              ⟨fuel - 1, by have : 1 ≤ fuel := le_trans (by simp [needTailO]) hf; omega⟩
            apply parseObjRest_nil
            rw [dumpsTailO]
            simp only [List.nil_append]
            exact skipWs_not_ws _ _ (by decide)
        | cons kv kvs' =>
            obtain ⟨k, v⟩ := kv
            intro fuel hf r
            have h1 : 1 + max (needVal v) (needTailO kvs') ≤ fuel := by
              simpa [needTailO] using hf
            obtain ⟨f, rfl⟩ : ∃ f, fuel = f + 1 := ⟨fuel - 1, by omega⟩
            have hm1 := le_max_left (needVal v) (needTailO kvs')
            have hm2 := le_max_right (needVal v) (needTailO kvs')
            have hsx : sizeOf v ≤ N ∧ sizeOf kvs' ≤ N := by
              have h' := hkvs
              simp only [List.cons.sizeOf_spec, Prod.mk.sizeOf_spec] at h'
              omega
            have hinput : dumpsTailO ((k, v) :: kvs') ++ ('}' :: r) =
                ',' :: (' ' :: ('"' :: (escBody k ++
                  (':' :: (' ' :: (dumps v ++ (dumpsTailO kvs' ++ ('}' :: r)))))))) := by
              rw [dumpsTailO, escStr]
              simp
            have hskip : skipWs (dumpsTailO ((k, v) :: kvs') ++ ('}' :: r)) =
                ',' :: (' ' :: ('"' :: (escBody k ++
                  (':' :: (' ' :: (dumps v ++ (dumpsTailO kvs' ++ ('}' :: r)))))))) := by
              rw [hinput]
              exact skipWs_not_ws _ _ (by decide)
            have h1' : skipWs (' ' :: ('"' :: (escBody k ++
                (':' :: (' ' :: (dumps v ++ (dumpsTailO kvs' ++ ('}' :: r)))))))) =
                '"' :: (escBody k ++
                  (':' :: (' ' :: (dumps v ++ (dumpsTailO kvs' ++ ('}' :: r)))))) := by
              have := skipWs_ws_cons [' '] wsj_space '"'
                (escBody k ++ (':' :: (' ' :: (dumps v ++ (dumpsTailO kvs' ++ ('}' :: r))))))
                (by decide)
              simpa using this
            have hk : parseStrBody (escBody k ++
                (':' :: (' ' :: (dumps v ++ (dumpsTailO kvs' ++ ('}' :: r)))))) =
                some (k, ':' :: (' ' :: (dumps v ++ (dumpsTailO kvs' ++ ('}' :: r))))) :=
              parseStrBody_escBody k _
            have h2 : skipWs (':' :: (' ' :: (dumps v ++ (dumpsTailO kvs' ++ ('}' :: r))))) =
                ':' :: (' ' :: (dumps v ++ (dumpsTailO kvs' ++ ('}' :: r)))) :=
              skipWs_not_ws _ _ (by decide)
            have hv : parseVal f (' ' :: (dumps v ++ (dumpsTailO kvs' ++ ('}' :: r)))) =
                some (v, dumpsTailO kvs' ++ ('}' :: r)) := by
              have := ihV v hsx.1 f (by omega) [' ']
                (dumpsTailO kvs' ++ ('}' :: r)) wsj_space (delimOk_tailO kvs' r)
              simpa using this
            have ht : parseObjRest f (dumpsTailO kvs' ++ ('}' :: r)) =
                some (kvs', r) := ihTO kvs' hsx.2 f (by omega) r
            exact parseObjRest_cons f _ _ _ k _ _ _ _ v kvs' hskip h1' hk h2 hv ht

theorem need_le_dumps (N : Nat) :
    (∀ v : Jval, sizeOf v ≤ N → needVal v ≤ (dumps v).length + 1) ∧
    (∀ xs : List Jval, sizeOf xs ≤ N → needArr xs ≤ (dumpsArr xs).length + 2) ∧
    (∀ xs : List Jval, sizeOf xs ≤ N →
      needTailA xs ≤ (dumpsTailA xs).length + 1) ∧
    (∀ kvs : List (List Char × Jval), sizeOf kvs ≤ N →
      needObj kvs ≤ (dumpsObj kvs).length + 2) ∧
    (∀ kvs : List (List Char × Jval), sizeOf kvs ≤ N →
      needTailO kvs ≤ (dumpsTailO kvs).length + 1) := by
  induction N with
  | zero =>
      refine ⟨?_, ?_, ?_, ?_, ?_⟩ <;> intro t ht <;> exfalso <;>
        (cases t <;> simp at ht)
  | succ N ih =>
      obtain ⟨ihV, ihA, ihTA, ihO, ihTO⟩ := ih
      refine ⟨?_, ?_, ?_, ?_, ?_⟩
      · intro v hv
        cases v with
        | jnull => simp [needVal, dumps]
        | jbool b => cases b <;> simp [needVal, dumps]
        | jnum n => simp only [needVal]; omega
        | jstr s => simp only [needVal]; omega
        | jarr xs =>
            have hxs : sizeOf xs ≤ N := by
              have h' := hv
              simp only [Jval.jarr.sizeOf_spec] at h'
              omega
            have hA := ihA xs hxs
            simp only [needVal, dumps, List.length_cons, List.length_append,
              List.length_singleton]
            omega
        | jobj kvs =>
            have hkvs : sizeOf kvs ≤ N := by
              have h' := hv
              simp only [Jval.jobj.sizeOf_spec] at h'
              omega
            have hO := ihO kvs hkvs
            simp only [needVal, dumps, List.length_cons, List.length_append,
              List.length_singleton]
            omega
      · intro xs hxs
        cases xs with
        | nil => simp [needArr, dumpsArr]
        | cons x xs' =>
            have hsx : sizeOf x ≤ N ∧ sizeOf xs' ≤ N := by
              have h' := hxs
              simp only [List.cons.sizeOf_spec] at h'
              omega
            have hV := ihV x hsx.1
            have hTA := ihTA xs' hsx.2
            have hmax : max (needVal x) (needTailA xs') ≤
                (dumps x).length + (dumpsTailA xs').length + 1 :=
              max_le (by omega) (by omega)
            simp only [needArr, dumpsArr, List.length_append]
            omega
      · intro xs hxs
        cases xs with
        | nil => simp [needTailA, dumpsTailA]
        | cons x xs' =>
            have hsx : sizeOf x ≤ N ∧ sizeOf xs' ≤ N := by
              have h' := hxs
              simp only [List.cons.sizeOf_spec] at h'
              omega
            have hV := ihV x hsx.1
            have hTA := ihTA xs' hsx.2
            have hmax : max (needVal x) (needTailA xs') ≤
                (dumps x).length + (dumpsTailA xs').length + 1 :=
              max_le (by omega) (by omega)
            simp only [needTailA, dumpsTailA, List.length_cons,
              List.length_append]
            omega
      · intro kvs hkvs
        cases kvs with
        | nil => simp [needObj, dumpsObj]
        | cons kv kvs' =>
            obtain ⟨k, v⟩ := kv
            have hsx : sizeOf v ≤ N ∧ sizeOf kvs' ≤ N := by
              have h' := hkvs
              simp only [List.cons.sizeOf_spec, Prod.mk.sizeOf_spec] at h'
              omega
            have hV := ihV v hsx.1
            have hTO := ihTO kvs' hsx.2
            have hmax : max (needVal v) (needTailO kvs') ≤
                (dumps v).length + (dumpsTailO kvs').length + 1 :=
              max_le (by omega) (by omega)
            simp only [needObj, dumpsObj, List.length_append, List.length_cons]
            omega
      · intro kvs hkvs
        cases kvs with
        | nil => simp [needTailO, dumpsTailO]
        | cons kv kvs' =>
            obtain ⟨k, v⟩ := kv
            have hsx : sizeOf v ≤ N ∧ sizeOf kvs' ≤ N := by
              have h' := hkvs
              simp only [List.cons.sizeOf_spec, Prod.mk.sizeOf_spec] at h'
              omega
            have hV := ihV v hsx.1
            have hTO := ihTO kvs' hsx.2
            have hmax : max (needVal v) (needTailO kvs') ≤
                (dumps v).length + (dumpsTailO kvs').length + 1 :=
              max_le (by omega) (by omega)
            simp only [needTailO, dumpsTailO, List.length_append,
              List.length_cons]
            omega

/-- The model of `json.loads` inverts the model of `json.dumps`. -/
theorem json_loads_dumps (v : Jval) : json_loads (dumps v) = some v := by
  have hP := (parse_dumps_all (sizeOf v)).1 v le_rfl
  have hneed := (need_le_dumps (sizeOf v)).1 v le_rfl
  have hrun := hP ((dumps v).length + 1) hneed [] [] wsj_nil rfl
  simp only [List.nil_append, List.append_nil] at hrun
  rw [json_loads, hrun]
  rfl

theorem dropWhile_not (p : Char → Bool) (c : Char) (l : List Char)
    (h : p c = false) : (c :: l).dropWhile p = c :: l := by
  simp [List.dropWhile_cons, h]

theorem dropWhile_all (p : Char → Bool) :
    ∀ (l1 l2 : List Char), (∀ c ∈ l1, p c = true) →
      (l1 ++ l2).dropWhile p = l2.dropWhile p := by
  intro l1
  induction l1 with
  | nil => intro l2 _; rfl
  | cons c cs ih =>
      intro l2 h
      simp only [List.cons_append, List.dropWhile_cons, h c (by simp)]
      exact ih l2 (fun x hx => h x (by simp [hx]))

/-- `str.strip()` of whitespace, a body with non-whitespace first and last
characters, and whitespace again, is the body. -/
theorem pyStrip_sandwich (pre post mid : List Char)
    (hpre : ∀ c ∈ pre, isPyWs c = true) (hpost : ∀ c ∈ post, isPyWs c = true)
    (c0 : Char) (cs0 : List Char) (hhead : mid = c0 :: cs0)
    (hc0 : isPyWs c0 = false)
    (c1 : Char) (cs1 : List Char) (hlast : mid.reverse = c1 :: cs1)
    (hc1 : isPyWs c1 = false) :
    pyStrip (pre ++ (mid ++ post)) = mid := by
  have h1 : (pre ++ (mid ++ post)).dropWhile isPyWs = mid ++ post := by
    rw [dropWhile_all isPyWs pre (mid ++ post) hpre, hhead, List.cons_append,
      dropWhile_not isPyWs c0 (cs0 ++ post) hc0, ← List.cons_append, ← hhead]
  have h2 : ((mid ++ post).reverse).dropWhile isPyWs = mid.reverse := by
    rw [List.reverse_append, dropWhile_all isPyWs post.reverse mid.reverse
      (fun c hc => hpost c (List.mem_reverse.1 hc)), hlast,
      dropWhile_not isPyWs c1 cs1 hc1, ← hlast]
  unfold pyStrip
  rw [h1, h2, List.reverse_reverse]

theorem isPrefixOf_append_self (l r : List Char) :
    l.isPrefixOf (l ++ r) = true := by
  induction l with
  | nil => simp [List.isPrefixOf]
  | cons c cs ih => simp [List.isPrefixOf, ih]

theorem jsonFence_not_prefix (c : Char) (cs : List Char) (h : c ≠ bq) :
    jsonFencePre.isPrefixOf (c :: cs) = false := by
  have hbc : (bq == c) = false := by
    cases hb : bq == c
    · rfl
    · exact absurd (eq_comm.1 (beq_iff_eq.1 hb)) h
  simp [jsonFencePre, List.isPrefixOf, hbc]

theorem fence_not_prefix (c : Char) (cs : List Char) (h : c ≠ bq) :
    fencePre.isPrefixOf (c :: cs) = false := by
  have hbc : (bq == c) = false := by
    cases hb : bq == c
    · rfl
    · exact absurd (eq_comm.1 (beq_iff_eq.1 hb)) h
  simp [fencePre, List.isPrefixOf, hbc]

theorem fence_not_suffix (l : List Char) (c : Char) (cs : List Char)
    (hrev : l.reverse = c :: cs) (h : c ≠ bq) :
    fencePre.isSuffixOf l = false := by
  rw [List.isSuffixOf, hrev]
  have hfr : fencePre.reverse = fencePre := rfl
  rw [hfr]
  exact fence_not_prefix c cs h

theorem fence_suffix_append (t : List Char) :
    fencePre.isSuffixOf (t ++ fencePre) = true := by
  rw [List.isSuffixOf, List.reverse_append]
  have hfr : fencePre.reverse = fencePre := rfl
  rw [hfr]
  exact isPrefixOf_append_self _ _

theorem drop_jsonFence (t : List Char) : (jsonFencePre ++ t).drop 7 = t := by
  have h7 : jsonFencePre.length = 7 := rfl
  rw [← h7, List.drop_left]

theorem drop_fence (t : List Char) : (fencePre ++ t).drop 3 = t := by
  have h3 : fencePre.length = 3 := rfl
  rw [← h3, List.drop_left]

theorem take_fence (t : List Char) :
    (t ++ fencePre).take ((t ++ fencePre).length - 3) = t := by
  have hl : (t ++ fencePre).length - 3 = t.length := by
    simp [fencePre]
  rw [hl, List.take_left]

theorem pjm_plain (text mid : List Char)
    (hstrip : pyStrip text = mid)
    (hjf : jsonFencePre.isPrefixOf mid = false)
    (hf : fencePre.isPrefixOf mid = false)
    (hsf : fencePre.isSuffixOf mid = false)
    (hstrip2 : pyStrip mid = mid) :
    parse_json_markdown text = json_loads mid := by
  rw [parse_json_markdown]
  simp only [hstrip, hjf, hf, hsf, Bool.false_eq_true, if_false, hstrip2]

theorem pjm_json_fence (text body : List Char)
    (hstrip : pyStrip text =
      jsonFencePre ++ ('\n' :: (body ++ ('\n' :: fencePre))))
    (hstrip2 : pyStrip ('\n' :: (body ++ ['\n'])) = body) :
    parse_json_markdown text = json_loads body := by
  have hu : '\n' :: (body ++ ('\n' :: fencePre)) =
      ('\n' :: (body ++ ['\n'])) ++ fencePre := by simp
  rw [parse_json_markdown]
  simp only [hstrip, isPrefixOf_append_self, if_true, drop_jsonFence, hu,
    fence_suffix_append, take_fence, hstrip2]

theorem pjm_bare_fence (text body : List Char)
    (hstrip : pyStrip text = fencePre ++ ('\n' :: (body ++ ('\n' :: fencePre))))
    (hstrip2 : pyStrip ('\n' :: (body ++ ['\n'])) = body) :
    parse_json_markdown text = json_loads body := by
  have hjn : ('j' == '\n') = false := by decide
  have hnp : jsonFencePre.isPrefixOf
      (fencePre ++ ('\n' :: (body ++ ('\n' :: fencePre)))) = false := by
    simp [jsonFencePre, fencePre, List.isPrefixOf, hjn]
  have hu : '\n' :: (body ++ ('\n' :: fencePre)) =
      ('\n' :: (body ++ ['\n'])) ++ fencePre := by simp
  rw [parse_json_markdown]
  simp only [hstrip, hnp, Bool.false_eq_true, if_false, isPrefixOf_append_self,
    if_true, drop_fence]
  rw [hu]
  simp only [fence_suffix_append, if_true, take_fence, hstrip2]

/-- C10: `parse_json_markdown` inverts markdown code-fencing of JSON.  For
every value `x` of the modelled JSON fragment (`Jwf`: strings printable
ASCII, so that `dumps` coincides with CPython's `json.dumps`; numbers are
ints — floats are outside the model), the function recovers `x` from
`json.dumps(x)` plain, from the json-tagged fence form, and from the bare
fence form, each with arbitrary surrounding whitespace. -/
theorem C10_parse_json_markdown_roundtrip (x : Jval) (pre post : List Char)
    (hwf : Jwf x = true)
    (hpre : ∀ c ∈ pre, isPyWs c = true)
    (hpost : ∀ c ∈ post, isPyWs c = true) :
    parse_json_markdown (pre ++ (dumps x ++ post)) = some x ∧
    parse_json_markdown (pre ++
      ((jsonFencePre ++ ('\n' :: (dumps x ++ ('\n' :: fencePre)))) ++ post)) =
      some x ∧
    parse_json_markdown (pre ++
      ((fencePre ++ ('\n' :: (dumps x ++ ('\n' :: fencePre)))) ++ post)) =
      some x := by
  obtain ⟨c0, cs0, hh, hg⟩ := dumps_head x
  obtain ⟨c1, cs1, hl, hg1⟩ := dumps_last x
  have hnil : ∀ c ∈ ([] : List Char), isPyWs c = true :=
    fun c hc => absurd hc (List.not_mem_nil c)
  have h1n : ∀ c ∈ ['\n'], isPyWs c = true := by decide
  have hstrip_self : pyStrip (dumps x) = dumps x := by
    have := pyStrip_sandwich [] [] (dumps x) hnil hnil c0 cs0 hh hg.2.1
      c1 cs1 hl hg1.1
    simpa using this
  have hstrip2 : pyStrip ('\n' :: (dumps x ++ ['\n'])) = dumps x := by
    have := pyStrip_sandwich ['\n'] ['\n'] (dumps x) h1n h1n c0 cs0 hh hg.2.1
      c1 cs1 hl hg1.1
    simpa using this
  refine ⟨?_, ?_, ?_⟩
  · rw [pjm_plain (pre ++ (dumps x ++ post)) (dumps x)
      (pyStrip_sandwich pre post (dumps x) hpre hpost c0 cs0 hh hg.2.1
        c1 cs1 hl hg1.1)
      (by rw [hh]; exact jsonFence_not_prefix c0 cs0 hg.2.2.1)
      (by rw [hh]; exact fence_not_prefix c0 cs0 hg.2.2.1)
      (fence_not_suffix (dumps x) c1 cs1 hl hg1.2)
      hstrip_self]
    exact json_loads_dumps x
  · have hassoc : jsonFencePre ++ ('\n' :: (dumps x ++ ('\n' :: fencePre))) =
        (jsonFencePre ++ ('\n' :: (dumps x ++ ['\n']))) ++ fencePre := by simp
    have hstrip_jf : pyStrip (pre ++
        ((jsonFencePre ++ ('\n' :: (dumps x ++ ('\n' :: fencePre)))) ++ post)) =
        jsonFencePre ++ ('\n' :: (dumps x ++ ('\n' :: fencePre))) := by
      apply pyStrip_sandwich pre post _ hpre hpost bq
        ([bq, bq, 'j', 's', 'o', 'n'] ++ ('\n' :: (dumps x ++ ('\n' :: fencePre))))
        (by simp [jsonFencePre]) (by decide)
        bq (bq :: bq ::
          ((jsonFencePre ++ ('\n' :: (dumps x ++ ['\n']))).reverse))
        ?_ (by decide)
      rw [hassoc, List.reverse_append]
      rfl
    rw [pjm_json_fence _ (dumps x) hstrip_jf hstrip2]
    exact json_loads_dumps x
  · have hassoc : fencePre ++ ('\n' :: (dumps x ++ ('\n' :: fencePre))) =
        (fencePre ++ ('\n' :: (dumps x ++ ['\n']))) ++ fencePre := by simp
    have hstrip_bf : pyStrip (pre ++
        ((fencePre ++ ('\n' :: (dumps x ++ ('\n' :: fencePre)))) ++ post)) =
        fencePre ++ ('\n' :: (dumps x ++ ('\n' :: fencePre))) := by
      apply pyStrip_sandwich pre post _ hpre hpost bq
        ([bq, bq] ++ ('\n' :: (dumps x ++ ('\n' :: fencePre))))
        (by simp [fencePre]) (by decide)
        bq (bq :: bq ::
          ((fencePre ++ ('\n' :: (dumps x ++ ['\n']))).reverse))
        ?_ (by decide)
      rw [hassoc, List.reverse_append]
      rfl
    rw [pjm_bare_fence _ (dumps x) hstrip_bf hstrip2]
    exact json_loads_dumps x

theorem C10_parse_json_markdown_roundtrip_witness :
    parse_json_markdown ([' '] ++ (dumps .jnull ++ ['\n'])) = some .jnull ∧
    parse_json_markdown ([' '] ++
      ((jsonFencePre ++ ('\n' :: (dumps .jnull ++ ('\n' :: fencePre)))) ++
        ['\n'])) = some .jnull ∧
    parse_json_markdown ([' '] ++
      ((fencePre ++ ('\n' :: (dumps .jnull ++ ('\n' :: fencePre)))) ++
        ['\n'])) = some .jnull :=
  C10_parse_json_markdown_roundtrip .jnull [' '] ['\n'] (by simp [Jwf])
    (by decide) (by decide)
